import Mathlib

set_option maxRecDepth 16000

/-!
Verification of the music-video planning and assembly pipeline
(scripts/music_plan.py, scripts/music_analyze.py,
scripts/music_assemble_ffmpeg.py, scripts/music_generate.py).

Python floats are modelled as exact rationals; Python dict-get with a
default and the Python falsy-coalescing idiom (x or d) are modelled by
Option together with the pyOr functions below.  The stdlib pseudo-random
generator random.Random is external to the repository and is modelled as
an abstract deterministic generator (RngOps below): an initial state is a
function of the seed and each draw is a pure function of the state.
-/

/-- Python round-half-even (the semantics of the builtin round) on an exact
rational, returning an integer. -/
def round_half_even (x : ℚ) : ℤ :=
  if x - ⌊x⌋ < 1/2 then ⌊x⌋
  else if 1/2 < x - ⌊x⌋ then ⌊x⌋ + 1
  else if ⌊x⌋ % 2 = 0 then ⌊x⌋ else ⌊x⌋ + 1

/-- Python round(x, 4) on an exact rational. -/
def round4 (x : ℚ) : ℚ :=
  (round_half_even (x * 10000) : ℚ) / 10000

/-- Insert into an ascending list, used to model the sort performed by
statistics.median. -/
def insertAsc (x : ℚ) : List ℚ → List ℚ
  | [] => [x]
  | y :: ys => if x ≤ y then x :: y :: ys else y :: insertAsc x ys

/-- Ascending sort of rationals (insertion sort; the sort order is all the
callers depend on). -/
def sortAsc (l : List ℚ) : List ℚ := l.foldr insertAsc []

/-- Python statistics.median: sort, take the middle element for odd length,
the mean of the two middle elements for even length.  The empty case (which
raises in Python) returns 0; every caller in the sources guards against it. -/
def pyMedian (l : List ℚ) : ℚ :=
  if (sortAsc l).length % 2 = 1 then (sortAsc l).getD ((sortAsc l).length / 2) 0
  else
    ((sortAsc l).getD ((sortAsc l).length / 2 - 1) 0 + (sortAsc l).getD ((sortAsc l).length / 2) 0) / 2

/-- Python substring membership test (needle in hay) for a non-empty needle,
via splitOn: the needle occurs iff splitting on it yields at least two parts. -/
def strContains (hay needle : String) : Bool :=
  (hay.splitOn needle).length ≥ 2

/-- Python coalescing x or d on an optional rational JSON field: a missing
key or a falsy value (None, 0.0) yields the default. -/
def pyOrQ (x : Option ℚ) (d : ℚ) : ℚ :=
  match x with
  | none => d
  | some v => if v = 0 then d else v

/-- Python coalescing x or d on an optional integer JSON field. -/
def pyOrInt (x : Option ℤ) (d : ℤ) : ℤ :=
  match x with
  | none => d
  | some v => if v = 0 then d else v

/-- Zero-padded three-digit shot index, as in the Python format shot_NNN. -/
def pad3 (n : Nat) : String :=
  let s := toString n
  if s.length ≥ 3 then s else String.mk (List.replicate (3 - s.length) '0') ++ s

/-!  scripts/music_plan.py  -/

/-- One section record of the audio analysis (label, start_sec, end_sec,
energy).  The Python dict-get defaults for a malformed record (label
"section", energy "medium", times 0.0) are applied when the record is
decoded into this structure. -/
structure Section where
  label : String
  energy : String
  startSec : ℚ
  endSec : ℚ
  deriving DecidableEq, Repr

/-- The audio-analysis input of the planner.  duration_seconds and bpm are
optional (dict-get with default in the source); the remaining fields are the
decoded JSON arrays.  downbeats, energyCurve, backend and warnings are
present in the file but never read by _build_shots. -/
structure AudioAnalysis where
  durationSeconds : Option ℚ
  bpm : Option ℚ
  beats : List ℚ
  sections : List Section
  downbeats : List ℚ
  energyCurve : List (ℚ × ℚ)
  backend : String
  warnings : List String
  deriving DecidableEq, Repr

/-- The creative parameters of music_plan.py (its argparse namespace). -/
structure PlanParams where
  theme : String
  brand : String
  stylePreset : String
  resolution : String
  fps : ℤ
  minShotSeconds : ℚ
  maxShotSeconds : ℚ
  takesHero : ℤ
  takesStandard : ℤ
  takesFiller : ℤ
  seed : ℤ
  deriving DecidableEq, Repr

/-- One planned shot record as emitted by _build_shots. -/
structure Shot where
  id : String
  startSec : ℚ
  endSec : ℚ
  durationSec : ℚ
  sectionLabel : String
  energy : String
  priority : String
  visualGoal : String
  prompt : String
  negativePrompt : String
  qualityHint : String
  takes : ℤ
  transitionAfter : String
  deriving DecidableEq, Repr

/-- Abstract deterministic pseudo-random source standing in for the stdlib
random.Random: init builds the state from the seed, choice and sample are
the two draws _build_prompt performs, each returning the advanced state. -/
structure RngOps (σ : Type) where
  init : ℤ → σ
  choice : σ → List String → String × σ
  sample : σ → List String → Nat → List String × σ

/-- A trivial concrete generator used to instantiate witnesses. -/
def trivRng : RngOps Unit where
  init _ := ()
  choice s l := (l.headD "", s)
  sample s l k := (l.take k, s)

/-- The positive inter-beat intervals of a beat list, shared by
_beat_interval and _infer_bpm_from_beats. -/
def ibi_intervals (beats : List ℚ) : List ℚ :=
  (List.zipWith (fun a b => b - a) beats beats.tail).filter (fun v => 0 < v)

/-- _beat_interval: median positive inter-beat gap, or 60/bpm with the bpm
clamped into the plausible 40 to 220 range. -/
def beat_interval (beats : List ℚ) (fallbackBpm : ℚ) : ℚ :=
  if 2 ≤ beats.length then
    if ibi_intervals beats ≠ [] then pyMedian (ibi_intervals beats)
    else 60 / max 40 (min 220 (pyOrQ (some fallbackBpm) 120))
  else 60 / max 40 (min 220 (pyOrQ (some fallbackBpm) 120))

/-- _snap_forward: the first beat (in list order) at or after the target,
and the last list element when no beat qualifies. -/
def snap_forward (target : ℚ) : List ℚ → ℚ
  | [] => target
  | [b] => b
  | b :: c :: rest => if target ≤ b then b else snap_forward target (c :: rest)

/-- _find_section_at: the first section whose half-open span contains the
time, else the last section, else a default one-second section record. -/
def find_section_at (timeSec : ℚ) (sections : List Section) : Section :=
  match sections.find? (fun s => decide (s.startSec ≤ timeSec ∧ timeSec < s.endSec)) with
  | some s => s
  | none =>
    match sections.getLast? with
    | some s => s
    | none => { label := "section", energy := "medium", startSec := 0, endSec := timeSec + 1 }

/-- _shot_type: the first shot is hero; chorus or drop sections give hero;
low energy gives filler; otherwise standard. -/
def shot_type (sectionLabel energy : String) (shotIndex : Nat) : String :=
  if shotIndex = 1 then "hero"
  else if strContains sectionLabel.toLower "chorus" || strContains sectionLabel.toLower "drop" then "hero"
  else if energy.toLower = "low" then "filler"
  else "standard"

/-- _style_tokens: the per-preset token lists (argparse restricts the preset
to the four keys of the Python mapping; any other string yields []). -/
def style_tokens (stylePreset : String) : List String :=
  if stylePreset = "cinematic" then
    ["cinematic composition", "natural skin tones",
     "high dynamic range lighting", "coherent facial anatomy"]
  else if stylePreset = "performance" then
    ["energetic performance framing", "stage-like confidence",
     "dynamic camera movement", "strong visual rhythm"]
  else if stylePreset = "abstract" then
    ["stylized visual poetry", "bold color contrast",
     "symbolic scene design", "surreal but coherent motion"]
  else if stylePreset = "brand-promo" then
    ["commercial-grade polish", "clean premium aesthetic",
     "product storytelling energy", "ad-ready lighting"]
  else []

/-- _section_descriptor. -/
def section_descriptor (sectionLabel : String) : String :=
  let label := sectionLabel.toLower
  if label = "intro" then "establishing shot with atmosphere and anticipation"
  else if label = "verse" then "narrative medium shot with subtle movement"
  else if label = "pre-chorus" then "rising tension with forward camera drift"
  else if label = "chorus" then "hero shot, strong subject clarity, expressive motion"
  else if label = "bridge" then "contrast section with unexpected angle and mood shift"
  else if label = "outro" then "closing shot with graceful deceleration"
  else "stylized music video shot with clear subject and coherent action"

/-- The camera-move candidate list of _build_prompt. -/
def camera_moves : List String :=
  ["slow dolly-in", "handheld parallax motion", "gentle crane rise",
   "tracking shot from side profile", "center-framed push-in", "over-shoulder reveal"]

/-- _build_prompt: one choice draw for the camera move, then one sample draw
of min 3 style tokens, assembled into the prompt template.  Returns the
prompt together with the advanced generator state. -/
def build_prompt {σ : Type} (rng : RngOps σ) (st : σ)
    (theme stylePreset sectionLabel brand : String) : String × σ :=
  let styleTokens := style_tokens stylePreset
  let descriptor := section_descriptor sectionLabel
  let (camera, st1) := rng.choice st camera_moves
  let (sampled, st2) := rng.sample st1 styleTokens (min 3 styleTokens.length)
  let style := String.intercalate ", " sampled
  let brandClause :=
    if brand.trim = "" then ""
    else ", subtle visual motif inspired by " ++ brand.trim ++ ", no readable logos or text"
  ("music video scene, " ++ theme.trim ++ ", " ++ descriptor ++ ", " ++ camera ++ ", " ++
     style ++ ", clear human subject, coherent anatomy, cinematic realism" ++ brandClause,
   st2)

/-- _negative_prompt. -/
def negative_prompt_text : String :=
  "text, logo, watermark, unreadable typography, blurry, overexposed, underexposed, " ++
  "gray blob, abstract texture mush, deformed anatomy, extra limbs, flicker, jitter"

/-- _quality_hint: music-video defaults bias toward visual quality. -/
def quality_hint (_shotKind : String) : String := "quality"

/-- _takes_for_kind. -/
def takes_for_kind (shotKind : String) (p : PlanParams) : ℤ :=
  if shotKind = "hero" then max 1 p.takesHero
  else if shotKind = "standard" then max 1 p.takesStandard
  else max 1 p.takesFiller

/-- The per-kind target beat count of a shot (hero 4, standard 6, filler 8). -/
def beats_per_shot (shotKind : String) : ℚ :=
  if shotKind = "hero" then 4 else if shotKind = "standard" then 6 else 8

/-- The first clamp of the loop body: end_sec = min(duration,
max(cursor + min_shot_seconds, snapped_end)). -/
def clamp1 (minS D cursor snapped : ℚ) : ℚ :=
  min D (max (cursor + minS) snapped)

/-- The second clamp of the loop body: pull an end exceeding
max_shot_seconds back to min(duration, cursor + max_shot_seconds). -/
def clamp2 (minS maxS D cursor snapped : ℚ) : ℚ :=
  if maxS < clamp1 minS D cursor snapped - cursor then min D (cursor + maxS)
  else clamp1 minS D cursor snapped

/-- The last repair of the loop body: a non-advancing end becomes
min(duration, cursor + max(beat interval, min_shot_seconds)). -/
def shot_end_core (minS maxS beatSec D cursor snapped : ℚ) : ℚ :=
  if clamp2 minS maxS D cursor snapped ≤ cursor then min D (cursor + max beatSec minS)
  else clamp2 minS maxS D cursor snapped

/-- The snapped candidate end of one iteration: the kind-derived raw
duration clamped into the shot bounds, added to the cursor, snapped
forward to the beat grid when beats exist. -/
def snapped_end (p : PlanParams) (beats : List ℚ) (sections : List Section)
    (beatSec : ℚ) (cursor : ℚ) (shotIndex : Nat) : ℚ :=
  let sec := find_section_at cursor sections
  let shotKind := shot_type sec.label sec.energy shotIndex
  let targetEnd := cursor +
    max p.minShotSeconds (min p.maxShotSeconds (beats_per_shot shotKind * beatSec))
  if beats = [] then targetEnd else snap_forward targetEnd beats

/-- The end-of-shot computation of one iteration of the _build_shots while
loop: target duration from the shot kind, clamp into the min and max shot
bounds, snap forward to the beat grid, clamp back into the max bound and
the track duration, and repair a non-advancing end. -/
def step_end (p : PlanParams) (D : ℚ) (beats : List ℚ) (sections : List Section)
    (beatSec : ℚ) (cursor : ℚ) (shotIndex : Nat) : ℚ :=
  shot_end_core p.minShotSeconds p.maxShotSeconds beatSec D cursor
    (snapped_end p beats sections beatSec cursor shotIndex)

/-- The shot record one loop iteration appends: rounded timings from the
exact cursor and step end, section fields, kind-derived priority and take
count, and the generated prompt. -/
def loop_shot {σ : Type} (rng : RngOps σ) (p : PlanParams) (D : ℚ) (beats : List ℚ)
    (sections : List Section) (beatSec : ℚ) (cursor : ℚ) (shotIndex : Nat) (st : σ) : Shot :=
  { id := "shot_" ++ pad3 shotIndex
    startSec := round4 cursor
    endSec := round4 (step_end p D beats sections beatSec cursor shotIndex)
    durationSec := round4 (step_end p D beats sections beatSec cursor shotIndex - cursor)
    sectionLabel := (find_section_at cursor sections).label
    energy := (find_section_at cursor sections).energy
    priority := shot_type (find_section_at cursor sections).label
      (find_section_at cursor sections).energy shotIndex
    visualGoal := section_descriptor (find_section_at cursor sections).label
    prompt := (build_prompt rng st p.theme p.stylePreset
      (find_section_at cursor sections).label p.brand).1
    negativePrompt := negative_prompt_text
    qualityHint := quality_hint (shot_type (find_section_at cursor sections).label
      (find_section_at cursor sections).energy shotIndex)
    takes := takes_for_kind (shot_type (find_section_at cursor sections).label
      (find_section_at cursor sections).energy shotIndex) p
    transitionAfter := "cut" }

/-- The generator state after one iteration (the prompt draw advances it). -/
def loop_state {σ : Type} (rng : RngOps σ) (p : PlanParams)
    (sections : List Section) (cursor : ℚ) (st : σ) : σ :=
  (build_prompt rng st p.theme p.stylePreset
    (find_section_at cursor sections).label p.brand).2

/-- The _build_shots while loop.  The fuel argument only bounds the number
of iterations so that the recursion is structural; build_shots passes
enough fuel for the loop to always reach its exit condition (proved in
build_loop_ok below). -/
def build_loop {σ : Type} (rng : RngOps σ) (p : PlanParams) (D : ℚ) (beats : List ℚ)
    (sections : List Section) (beatSec : ℚ) :
    Nat → ℚ → Nat → σ → Except String (List Shot)
  | 0, _, _, _ => .error "shot loop out of fuel"
  | fuel + 1, cursor, shotIndex, st =>
    if cursor < D - 1/10 then
      match build_loop rng p D beats sections beatSec fuel
          (step_end p D beats sections beatSec cursor shotIndex) (shotIndex + 1)
          (loop_state rng p sections cursor st) with
      | .ok rest => .ok (loop_shot rng p D beats sections beatSec cursor shotIndex st :: rest)
      | .error msg => .error msg
    else .ok []

/-- The tail-merge post-pass of _build_shots: when at least two shots exist
and the final one is shorter than min_shot_seconds, extend the previous
shot to the final end (recomputing its rounded duration from the stored
fields, as the source does) and drop the final shot. -/
def tail_merge (minShotSeconds : ℚ) : List Shot → List Shot
  | [] => []
  | [s] => [s]
  | [p, t] =>
    if t.durationSec < minShotSeconds then
      [{ p with endSec := t.endSec, durationSec := round4 (t.endSec - p.startSec) }]
    else [p, t]
  | s :: t :: u :: rest => s :: tail_merge minShotSeconds (t :: u :: rest)

/-- The effective duration _build_shots reads from the analysis
(float(analysis.get with default 0.0, falsy-coalesced)). -/
def effDuration (analysis : AudioAnalysis) : ℚ := pyOrQ analysis.durationSeconds 0

/-- The effective bpm _build_shots reads from the analysis. -/
def effBpm (analysis : AudioAnalysis) : ℚ := pyOrQ analysis.bpm 120

/-- A positive lower bound on the cursor advance of one loop iteration,
used only to size the fuel of the loop; see build_loop_ok. -/
def stepDelta (p : PlanParams) (beatSec : ℚ) : ℚ :=
  min (min beatSec p.minShotSeconds)
    (if 0 < p.maxShotSeconds then p.maxShotSeconds else beatSec)

/-- _build_shots: validate the duration, keep the non-negative beats, read
bpm and sections, run the shot loop from time 0 with shot index 1 and the
seeded generator, then apply the tail-merge post-pass. -/
def build_shots {σ : Type} (rng : RngOps σ) (analysis : AudioAnalysis) (p : PlanParams) :
    Except String (List Shot) :=
  let D := effDuration analysis
  if D ≤ 0 then .error "Analysis file missing valid duration_seconds"
  else
    let beats := analysis.beats.filter (fun v => 0 ≤ v)
    let bpm := effBpm analysis
    let sections := analysis.sections
    let beatSec := beat_interval beats bpm
    let fuel := (max 1 (Int.ceil (D / stepDelta p beatSec))).toNat + 2
    match build_loop rng p D beats sections beatSec fuel 0 1 (rng.init p.seed) with
    | .ok shots => .ok (tail_merge p.minShotSeconds shots)
    | .error msg => .error msg

/-!  scripts/music_analyze.py  -/

/-- _clip_round: keep values inside [0, duration], rounded to 4 decimals. -/
def clip_round (values : List ℚ) (duration : ℚ) : List ℚ :=
  values.filterMap (fun v =>
    if v < 0 then none
    else if duration < v then none
    else some (round4 v))

/-- _fallback_beats: a synthetic 120 bpm grid spanning the duration. -/
def fallback_beats (durationSeconds : ℚ) : ℚ × List ℚ :=
  let bpm : ℚ := 120
  let beatInterval := 60 / bpm
  let beatCount := max 1 ⌊durationSeconds / beatInterval⌋
  let beats := (List.range beatCount.toNat).map (fun i => (i : ℚ) * beatInterval)
  (bpm, clip_round beats durationSeconds)

/-- _infer_bpm_from_beats: derive bpm from the median positive inter-beat
interval, falling back to the given bpm when fewer than 3 beats exist, no
positive interval exists, or the derived bpm is outside 40 to 220. -/
def infer_bpm_from_beats (beats : List ℚ) (fallbackBpm : ℚ) : ℚ :=
  if beats.length < 3 then fallbackBpm
  else if ibi_intervals beats = [] then fallbackBpm
  else
    let med := pyMedian (ibi_intervals beats)
    if med ≤ 0 then fallbackBpm
    else
      let bpm := 60 / med
      if bpm < 40 ∨ 220 < bpm then fallbackBpm else bpm

/-- The bpm reported by _try_librosa_analysis once beat tracking has run:
given the raw tempo estimate and the clipped beat list, fewer than 4 beats
switches to the 120 bpm fallback grid, otherwise the bpm is re-derived
from the beats with the raw estimate (floored at 1.0) as fallback. -/
def librosa_reported_bpm (rawTempo : ℚ) (beats : List ℚ) : ℚ :=
  if beats.length < 4 then 120
  else infer_bpm_from_beats beats (max 1 rawTempo)

/-!  scripts/music_assemble_ffmpeg.py  -/

/-- One take record as read from the manifest by the assembler: status,
optional video_file, optional quality_score. -/
structure Take where
  status : String
  videoFile : Option String
  qualityScore : Option ℚ
  deriving DecidableEq, Repr

/-- One manifest shot: its takes list. -/
structure MShot where
  takes : List Take
  deriving DecidableEq, Repr

/-- The manifest as read by the assembler: per-shot takes plus the optional
top-level clips list.  File existence on disk is modelled by a predicate
fs from resolved paths to Bool, passed to the functions below. -/
structure Manifest where
  shots : List MShot
  clips : List String
  deriving DecidableEq, Repr

/-- The _best_take candidate filter: status success (case-insensitive), a
truthy video_file, and the file exists; the candidate carries the score
float(quality_score or 0.0). -/
def take_candidate (fs : String → Bool) (t : Take) : Option (ℚ × Take) :=
  if t.status.toLower ≠ "success" then none
  else
    match t.videoFile with
    | none => none
    | some path =>
      if path = "" then none
      else if fs path then some (t.qualityScore.getD 0, t)
      else none

/-- Stable descending insertion on the score component, modelling the
stable list.sort with reverse=True of _best_take: an element moves past
exactly the strictly greater scores, so equal scores keep encounter order. -/
def insertDesc (c : ℚ × Take) : List (ℚ × Take) → List (ℚ × Take)
  | [] => [c]
  | d :: ds => if c.1 < d.1 then d :: insertDesc c ds else c :: d :: ds

/-- Stable descending sort by score. -/
def sortDesc (l : List (ℚ × Take)) : List (ℚ × Take) := l.foldr insertDesc []

/-- _best_take: collect scored candidates, sort descending by score
(stable), return the first, or none when no candidate qualifies. -/
def best_take (fs : String → Bool) (takes : List Take) : Option Take :=
  match sortDesc (takes.filterMap (take_candidate fs)) with
  | [] => none
  | c :: _ => some c.2

/-- The per-shot stage of _select_clip_paths: the best-take clip path per
shot, in shot order. -/
def shot_clips (fs : String → Bool) (manifest : Manifest) : List String :=
  manifest.shots.filterMap
    (fun s => (best_take fs s.takes).map (fun t => t.videoFile.getD ""))

/-- The fallback stage of _select_clip_paths: when no shot contributed a
clip, the existing files of the top-level clips list. -/
def selected_clips (fs : String → Bool) (manifest : Manifest) : List String :=
  if shot_clips fs manifest = [] then manifest.clips.filter fs
  else shot_clips fs manifest

/-- _select_clip_paths: the two stages above followed by the optional
max-clips cap, applied as a prefix of length max 1 cap. -/
def select_clip_paths (fs : String → Bool) (manifest : Manifest)
    (maxClips : Option ℤ) : List String :=
  match maxClips with
  | none => selected_clips fs manifest
  | some m => (selected_clips fs manifest).take (max 1 m).toNat

/-- The clip-selection step of the assembler main: an error exactly when
the selected clip list is empty. -/
def assemble_clips (fs : String → Bool) (manifest : Manifest)
    (maxClips : Option ℤ) : Except String (List String) :=
  let clipPaths := select_clip_paths fs manifest maxClips
  if clipPaths = [] then .error "No successful clips found in manifest."
  else .ok clipPaths

/-- The ffmpeg invocation assembled by _mux_audio. -/
def mux_audio_command (ffmpegBin loopVideo audioFile outputFile : String)
    (crf : ℤ) : List String :=
  [ffmpegBin, "-y",
   "-stream_loop", "-1",
   "-i", loopVideo,
   "-i", audioFile,
   "-map", "0:v:0",
   "-map", "1:a:0",
   "-c:v", "libx264",
   "-preset", "medium",
   "-crf", toString crf,
   "-pix_fmt", "yuv420p",
   "-c:a", "aac",
   "-b:a", "192k",
   "-shortest",
   "-movflags", "+faststart",
   outputFile]

/-- Whether a command asks ffmpeg to loop its first input indefinitely:
an adjacent -stream_loop -1 pair. -/
def has_stream_loop_forever (cmd : List String) : Bool :=
  (cmd.zip cmd.tail).any (fun ab => ab.1 == "-stream_loop" && ab.2 == "-1")

/-- Whether a command passes -shortest. -/
def has_shortest (cmd : List String) : Bool := cmd.contains "-shortest"

/-- Modelled from the spec: the duration behaviour of the external mux
tool, which is not part of this repository.  The video stream has
unbounded length (none) under indefinite looping, its own length
otherwise; with -shortest the output is trimmed to the shorter of the
audio and the (possibly unbounded) video, without it the output covers
the longer stream, and an unbounded video without -shortest yields an
unbounded output (none). -/
def muxed_duration (cmd : List String) (videoDur audioDur : ℚ) : Option ℚ :=
  let loopedVideo : Option ℚ := if has_stream_loop_forever cmd then none else some videoDur
  match loopedVideo, has_shortest cmd with
  | none, true => some audioDur
  | some v, true => some (min audioDur v)
  | none, false => none
  | some v, false => some (max audioDur v)

/-- Modelled from the spec: the source-clip time shown at output time t
when a video of positive duration v is looped from its start. -/
def looped_source_time (v t : ℚ) : ℚ := t - v * ⌊t / v⌋

/-!  scripts/music_generate.py  -/

/-- _takes_for_shot: the planned take count of the shot (missing, null or
zero coalesced to 1, then floored at 1), capped by max 1 of the optional
per-shot cap. -/
def takes_for_shot (shotTakes : Option ℤ) (maxTakesPerShot : Option ℤ) : ℤ :=
  let planned := max 1 (pyOrInt shotTakes 1)
  match maxTakesPerShot with
  | none => planned
  | some m => min planned (max 1 m)

/-- The shot cap of the generator main: shots[: max(1, max_shots)] when the
cap is given. -/
def capped_shots {α : Type} (shots : List α) (maxShots : Option ℤ) : List α :=
  match maxShots with
  | none => shots
  | some m => shots.take (max 1 m).toNat

/-!  Proof-support definitions  -/

/-- Whether a take qualifies for best-take selection (status success,
truthy video_file, existing file). -/
def usable_take (fs : String → Bool) (t : Take) : Bool :=
  (take_candidate fs t).isSome

/-- The score _best_take attaches to a take: quality_score with a missing
or null value read as 0.0. -/
def take_score (t : Take) : ℚ := t.qualityScore.getD 0

/-- Whether some take of a manifest shot is usable. -/
def shot_has_usable (fs : String → Bool) (s : MShot) : Bool :=
  s.takes.any (usable_take fs)

/-- The shape of the list a successful run of the _build_shots while loop
produces, starting from a given cursor: each shot stores the 4-decimal
rounding of its exact cursor and end, ends never exceed the duration, the
loop guard held at each entry and fails after the last shot, and the
per-step relation P links each exact cursor to its exact end. -/
def ShotsOK (D : ℚ) (P : ℚ → ℚ → Prop) : ℚ → List Shot → Prop
  | c, [] => ¬ c < D - 1/10
  | c, s :: rest => c < D - 1/10 ∧ ∃ e, c < e ∧ e ≤ D ∧ P c e ∧
      s.startSec = round4 c ∧ s.endSec = round4 e ∧ s.durationSec = round4 (e - c) ∧
      ShotsOK D P e rest

/-!  Concrete inputs used by counterexamples and witnesses  -/

/-- Counterexample analysis for the final-end claim: duration 10 with a
stray last beat at 9.91. -/
def aCex1 : AudioAnalysis :=
  { durationSeconds := some 10, bpm := some 120, beats := [0, 2, 4, 6, 991/100],
    sections := [], downbeats := [], energyCurve := [], backend := "librosa", warnings := [] }

/-- Parameters for the final-end counterexample. -/
def pCex1 : PlanParams :=
  { theme := "t", brand := "", stylePreset := "cinematic", resolution := "832x480", fps := 16,
    minShotSeconds := 1, maxShotSeconds := 4, takesHero := 3, takesStandard := 2,
    takesFiller := 1, seed := 42 }

/-- Counterexample analysis for the duration-bound claim: duration 9.9 with
an integer beat grid. -/
def aCex4 : AudioAnalysis :=
  { durationSeconds := some (99/10), bpm := some 120, beats := [0, 1, 2, 3, 4, 5, 6, 7, 8, 9],
    sections := [], downbeats := [], energyCurve := [], backend := "librosa", warnings := [] }

/-- Default-like parameters (min 2, max 4) for the duration-bound
counterexample and several witnesses. -/
def pDefault : PlanParams :=
  { theme := "t", brand := "", stylePreset := "cinematic", resolution := "832x480", fps := 16,
    minShotSeconds := 2, maxShotSeconds := 4, takesHero := 3, takesStandard := 2,
    takesFiller := 1, seed := 42 }

/-- Witness analysis: duration 10, no beats (synthetic-grid side). -/
def aW1 : AudioAnalysis :=
  { durationSeconds := some 10, bpm := none, beats := [], sections := [],
    downbeats := [], energyCurve := [], backend := "ffprobe-fallback", warnings := [] }

/-- A file-existence predicate under which every path exists. -/
def fsAll : String → Bool := fun _ => true

/-- Best-take witness takes: scores 0.35, 0.8, 0.6, all successful with
existing files. -/
def takesW6 : List Take :=
  [{ status := "success", videoFile := some "a.mp4", qualityScore := some (35/100) },
   { status := "success", videoFile := some "b.mp4", qualityScore := some (8/10) },
   { status := "success", videoFile := some "c.mp4", qualityScore := some (6/10) }]

/-- The take scoring 0.8 in takesW6. -/
def takeW6b : Take := { status := "success", videoFile := some "b.mp4", qualityScore := some (8/10) }

/-- A take with a null quality_score. -/
def takeNull : Take := { status := "success", videoFile := some "n.mp4", qualityScore := none }

/-- A failed take. -/
def takeErr : Take := { status := "error", videoFile := some "x.mp4", qualityScore := some 1 }

/-- Counterexample manifest for the no-usable-clips claim: no usable take
anywhere, but a top-level clips entry that exists. -/
def mCex7 : Manifest := { shots := [{ takes := [takeErr] }], clips := ["a.mp4"] }

/-- File-existence predicate for the no-usable-clips counterexample. -/
def fsCex7 : String → Bool := fun s => s == "a.mp4"

/-!  Basic lemmas about rounding, sorting and the median  -/

theorem round_half_even_le (x : ℚ) : (round_half_even x : ℚ) ≤ x + 1 := by
  unfold round_half_even
  have h1 : (⌊x⌋ : ℚ) ≤ x := Int.floor_le x
  split_ifs <;> push_cast <;> linarith

theorem lt_round_half_even (x : ℚ) : x - 1 < (round_half_even x : ℚ) := by
  unfold round_half_even
  have h2 : x < ⌊x⌋ + 1 := Int.lt_floor_add_one x
  split_ifs <;> push_cast <;> linarith

theorem round4_le (x : ℚ) : round4 x ≤ x + 1/10000 := by
  unfold round4
  have h := round_half_even_le (x * 10000)
  linarith

theorem le_round4 (x : ℚ) : x - 1/10000 ≤ round4 x := by
  unfold round4
  have h := lt_round_half_even (x * 10000)
  linarith

theorem round4_zero : round4 0 = 0 := by with_unfolding_all decide

theorem mem_insertAsc {x a : ℚ} : ∀ {l : List ℚ}, x ∈ insertAsc a l → x = a ∨ x ∈ l
  | [], h => by simpa [insertAsc] using h
  | y :: ys, h => by
    by_cases hle : a ≤ y
    · simpa [insertAsc, hle] using h
    · simp only [insertAsc, if_neg hle, List.mem_cons] at h
      rcases h with h | h
      · exact Or.inr (by simp [h])
      · rcases mem_insertAsc h with h | h
        · exact Or.inl h
        · exact Or.inr (List.mem_cons_of_mem y h)

theorem mem_sortAsc {x : ℚ} : ∀ {l : List ℚ}, x ∈ sortAsc l → x ∈ l
  | [], h => by simp [sortAsc] at h
  | y :: ys, h => by
    have h2 : x ∈ insertAsc y (sortAsc ys) := h
    rcases mem_insertAsc h2 with h3 | h3
    · simp [h3]
    · exact List.mem_cons_of_mem y (mem_sortAsc h3)

theorem length_insertAsc (a : ℚ) : ∀ (l : List ℚ), (insertAsc a l).length = l.length + 1
  | [] => rfl
  | y :: ys => by
    by_cases hle : a ≤ y
    · simp [insertAsc, hle]
    · simp [insertAsc, hle, length_insertAsc a ys]

theorem length_sortAsc : ∀ (l : List ℚ), (sortAsc l).length = l.length
  | [] => rfl
  | y :: ys => by
    show (insertAsc y (sortAsc ys)).length = ys.length + 1
    rw [length_insertAsc, length_sortAsc ys]

theorem getD_mem : ∀ (l : List ℚ) (n : Nat), n < l.length → l.getD n 0 ∈ l
  | a :: tl, 0, _ => List.mem_cons_self a tl
  | a :: tl, n + 1, h => by
    have hn : n < tl.length := by simpa using Nat.lt_of_succ_lt_succ h
    exact List.mem_cons_of_mem a (getD_mem tl n hn)

theorem pyMedian_pos {l : List ℚ} (hpos : ∀ x ∈ l, 0 < x) (hne : l ≠ []) : 0 < pyMedian l := by
  have hlen : (sortAsc l).length = l.length := length_sortAsc l
  have hn : 0 < l.length := List.length_pos.mpr hne
  have hs : ∀ x ∈ sortAsc l, 0 < x := fun x hx => hpos x (mem_sortAsc hx)
  unfold pyMedian
  split_ifs with hodd
  · exact hs _ (getD_mem _ _ (by omega))
  · have h2 : 2 ≤ (sortAsc l).length := by
      rcases Nat.lt_or_ge (sortAsc l).length 2 with h | h
      · interval_cases hcase : (sortAsc l).length <;> omega
      · exact h
    have ha := hs _ (getD_mem (sortAsc l) ((sortAsc l).length / 2 - 1) (by omega))
    have hb := hs _ (getD_mem (sortAsc l) ((sortAsc l).length / 2) (by omega))
    linarith

/-!  Lemmas about _snap_forward (claim C2)  -/

theorem snap_forward_found (target : ℚ) :
    ∀ (beats : List ℚ), (∃ b ∈ beats, target ≤ b) →
      snap_forward target beats ∈ beats ∧ target ≤ snap_forward target beats
  | [], h => by simp at h
  | [b], h => by
    have hb : target ≤ b := by simpa using h
    exact ⟨by simp [snap_forward], by simpa [snap_forward] using hb⟩
  | b :: c :: rest, h => by
    by_cases hb : target ≤ b
    · exact ⟨by simp [snap_forward, hb], by simpa [snap_forward, hb] using hb⟩
    · have h2 : ∃ x ∈ c :: rest, target ≤ x := by
        rcases h with ⟨x, hx, hxt⟩
        rcases List.mem_cons.mp hx with rfl | hx
        · exact absurd hxt hb
        · exact ⟨x, hx, hxt⟩
      have ih := snap_forward_found target (c :: rest) h2
      refine ⟨?_, ?_⟩
      · simpa [snap_forward, hb] using List.mem_cons_of_mem b ih.1
      · simpa [snap_forward, hb] using ih.2

theorem snap_forward_least (target : ℚ) :
    ∀ (beats : List ℚ), beats.Sorted (· ≤ ·) →
      ∀ x ∈ beats, target ≤ x → snap_forward target beats ≤ x
  | [], _, x, hx, _ => by simp at hx
  | [b], _, x, hx, hxt => by
    have : x = b := by simpa using hx
    simp [snap_forward, this]
  | b :: c :: rest, hs, x, hx, hxt => by
    rcases List.sorted_cons.mp hs with ⟨hball, hs2⟩
    by_cases hb : target ≤ b
    · simp only [snap_forward, if_pos hb]
      rcases List.mem_cons.mp hx with rfl | hx
      · exact le_refl x
      · exact hball x hx
    · simp only [snap_forward, if_neg hb]
      rcases List.mem_cons.mp hx with rfl | hx
      · exact absurd hxt hb
      · exact snap_forward_least target (c :: rest) hs2 x hx hxt

theorem snap_forward_fallback (target : ℚ) :
    ∀ (beats : List ℚ) (hne : beats ≠ []), (∀ b ∈ beats, b < target) →
      snap_forward target beats = beats.getLast hne
  | [], hne, _ => absurd rfl hne
  | [b], _, _ => by simp [snap_forward]
  | b :: c :: rest, _, h => by
    have hb : ¬ target ≤ b := not_le.mpr (h b (by simp))
    have ih := snap_forward_fallback target (c :: rest) (by simp)
      (fun x hx => h x (List.mem_cons_of_mem b hx))
    simp only [snap_forward, if_neg hb, ih]
    exact (List.getLast_cons (by simp)).symm

/-- Claim C2 (corrected): with the stated hypotheses (a non-empty ascending
beat list), _snap_forward returns a beat at or after the candidate time
only when such a beat exists, and it is then the earliest such beat; when
every beat lies strictly before the candidate time it returns the last
beat, which is strictly earlier than the candidate time (refuting the
claimed unconditional forward guarantee). -/
theorem c2_snap_amended (target : ℚ) (beats : List ℚ)
    (hs : beats.Sorted (· ≤ ·)) (hne : beats ≠ []) :
    ((∃ b ∈ beats, target ≤ b) →
      snap_forward target beats ∈ beats ∧ target ≤ snap_forward target beats ∧
        ∀ x ∈ beats, target ≤ x → snap_forward target beats ≤ x) ∧
    ((∀ b ∈ beats, b < target) →
      snap_forward target beats = beats.getLast hne ∧ snap_forward target beats < target) := by
  constructor
  · intro hex
    obtain ⟨hmem, hle⟩ := snap_forward_found target beats hex
    exact ⟨hmem, hle, fun x hx hxt => snap_forward_least target beats hs x hx hxt⟩
  · intro hall
    have heq := snap_forward_fallback target beats hne hall
    exact ⟨heq, heq ▸ hall _ (List.getLast_mem hne)⟩

/-- Claim C2 counterexample: for candidate end time 5 and the non-empty
ascending beat list [1, 2], _snap_forward returns 2, which is an earlier
time than the candidate, contradicting the claim that the snapped end is
always a beat at or after the candidate. -/
theorem c2_snap_cex :
    (1 : ℚ) ≤ 2 ∧ snap_forward 5 [1, 2] = 2 ∧ ¬ (5 : ℚ) ≤ snap_forward 5 [1, 2] := by
  refine ⟨by norm_num, ?_, ?_⟩ <;> with_unfolding_all decide

/-- Witness for the amended claim C2 at target 3 and beats [1, 2, 4]. -/
theorem c2_snap_witness :
    ((∃ b ∈ [(1:ℚ), 2, 4], (3:ℚ) ≤ b) →
      snap_forward 3 [1, 2, 4] ∈ [(1:ℚ), 2, 4] ∧ (3:ℚ) ≤ snap_forward 3 [1, 2, 4] ∧
        ∀ x ∈ [(1:ℚ), 2, 4], (3:ℚ) ≤ x → snap_forward 3 [1, 2, 4] ≤ x) ∧
    ((∀ b ∈ [(1:ℚ), 2, 4], b < 3) →
      snap_forward 3 [1, 2, 4] = List.getLast [(1:ℚ), 2, 4] (by simp) ∧
        snap_forward 3 [1, 2, 4] < 3) :=
  c2_snap_amended 3 [1, 2, 4]
    (by norm_num [List.sorted_cons]) (by simp)

/-!  Lemmas about bpm inference (claim C5)  -/

theorem ibi_intervals_pos (beats : List ℚ) : ∀ x ∈ ibi_intervals beats, 0 < x := by
  intro x hx
  unfold ibi_intervals at hx
  simpa using (List.mem_filter.mp hx).2

theorem pyMedian_ibi_pos {beats : List ℚ} (hne : ibi_intervals beats ≠ []) :
    0 < pyMedian (ibi_intervals beats) :=
  pyMedian_pos (ibi_intervals_pos beats) hne

/-- Claim C5 (corrected): with at least 4 beats and at least one positive
inter-beat interval, the reported bpm is 60 over the median inter-beat
interval exactly when that derived value lies in the plausible 40 to 220
range; otherwise the raw tempo estimate (floored at 1) is reported.  The
direction of the plausibility test is thus the reverse of the claimed one:
the derived value, not the raw estimate, is range-checked. -/
theorem c5_bpm_amended (rawTempo : ℚ) (beats : List ℚ)
    (h4 : 4 ≤ beats.length) (hne : ibi_intervals beats ≠ []) :
    (40 ≤ 60 / pyMedian (ibi_intervals beats) →
      60 / pyMedian (ibi_intervals beats) ≤ 220 →
      librosa_reported_bpm rawTempo beats = 60 / pyMedian (ibi_intervals beats)) ∧
    (60 / pyMedian (ibi_intervals beats) < 40 ∨ 220 < 60 / pyMedian (ibi_intervals beats) →
      librosa_reported_bpm rawTempo beats = max 1 rawTempo) := by
  have hmed := pyMedian_ibi_pos hne
  have hlen4 : ¬ beats.length < 4 := by omega
  have hlen3 : ¬ beats.length < 3 := by omega
  unfold librosa_reported_bpm infer_bpm_from_beats
  rw [if_neg hlen4, if_neg hlen3, if_neg hne, if_neg (not_le.mpr hmed)]
  constructor
  · intro hlo hhi
    rw [if_neg (by push_neg; exact ⟨hlo, hhi⟩)]
  · intro hout
    rw [if_pos hout]

/-- Claim C5 counterexample: the detector succeeds with 4 beats at half
second spacing (derived bpm 120) and a raw tempo estimate of 100, which
lies inside the plausible 40 to 220 range; the claim says the raw estimate
is then trusted and reported, but the code reports the derived 120. -/
theorem c5_bpm_cex :
    (40 : ℚ) ≤ 100 ∧ (100 : ℚ) ≤ 220 ∧
    librosa_reported_bpm 100 [0, 1/2, 1, 3/2] = 120 ∧ (120 : ℚ) ≠ 100 := by
  refine ⟨by norm_num, by norm_num, ?_, by norm_num⟩
  with_unfolding_all decide

/-- Witness for the amended claim C5: 4 beats at half-second spacing with
an implausible raw estimate 500. -/
theorem c5_bpm_witness :
    (40 ≤ 60 / pyMedian (ibi_intervals [0, 1/2, 1, 3/2]) →
      60 / pyMedian (ibi_intervals [0, 1/2, 1, 3/2]) ≤ 220 →
      librosa_reported_bpm 500 [0, 1/2, 1, 3/2] = 60 / pyMedian (ibi_intervals [0, 1/2, 1, 3/2])) ∧
    (60 / pyMedian (ibi_intervals [0, 1/2, 1, 3/2]) < 40 ∨
        220 < 60 / pyMedian (ibi_intervals [0, 1/2, 1, 3/2]) →
      librosa_reported_bpm 500 [0, 1/2, 1, 3/2] = max 1 500) :=
  c5_bpm_amended 500 [0, 1/2, 1, 3/2] (by norm_num)
    (by with_unfolding_all decide)

/-!  Claim C9: generation caps never drop below one shot or one take  -/

/-- Claim C9 (confirmed): for any planned takes value and any integer cap
values (including zero and negatives), the per-shot take count is at least
1 and at most max 1 cap, and the shot cap keeps a non-empty prefix of a
non-empty shot list, never more than the whole list. -/
theorem c9_generation_floors {α : Type} (shotTakes maxTakes maxShots : Option ℤ)
    (shots : List α) (hne : shots ≠ []) :
    1 ≤ takes_for_shot shotTakes maxTakes ∧
    (∀ m : ℤ, takes_for_shot shotTakes (some m) ≤ max 1 m) ∧
    capped_shots shots maxShots ≠ [] ∧
    (capped_shots shots maxShots).length ≤ shots.length := by
  refine ⟨?_, ?_, ?_, ?_⟩
  · unfold takes_for_shot
    match maxTakes with
    | none => exact le_max_left 1 _
    | some m => exact le_min (le_max_left 1 _) (le_max_left 1 _)
  · intro m
    unfold takes_for_shot
    exact min_le_right _ _
  · unfold capped_shots
    match maxShots with
    | none => exact hne
    | some m =>
      have h1 : (1 : ℤ) ≤ max 1 m := le_max_left 1 m
      have h2 : 1 ≤ (max 1 m).toNat := by omega
      match shots with
      | [] => exact absurd rfl hne
      | a :: l =>
        match hk : (max 1 m).toNat with
        | 0 => omega
        | k + 1 => simp [hk]
  · unfold capped_shots
    match maxShots with
    | none => exact le_refl _
    | some m =>
      show (List.take (max 1 m).toNat shots).length ≤ shots.length
      rw [List.length_take]
      exact min_le_right _ _

/-- Witness for claim C9 at a singleton shot list and caps of 0 and -3. -/
theorem c9_generation_witness :
    1 ≤ takes_for_shot (some 5) (some 0) ∧
    (∀ m : ℤ, takes_for_shot (some 5) (some m) ≤ max 1 m) ∧
    capped_shots [()] (some (-3)) ≠ [] ∧
    (capped_shots [()] (some (-3))).length ≤ [()].length :=
  c9_generation_floors (some 5) (some 0) (some (-3)) [()] (by simp)

/-!  Claim C3: planning is a pure function of its declared inputs  -/

/-- Claim C3 (confirmed): shot planning is deterministic.  The whole
computation, including every pseudo-random draw, is a pure function of the
analysis fields the planner reads (duration_seconds, beats, bpm, sections),
the creative parameters and the seed carried inside them: two analyses
agreeing on those fields (they may differ in downbeats, energy curve,
backend or warnings) and equal parameters yield identical shot lists,
for any deterministic generator implementation. -/
theorem c3_plan_deterministic {σ : Type} (rng : RngOps σ)
    (a1 a2 : AudioAnalysis) (p1 p2 : PlanParams)
    (hdur : a1.durationSeconds = a2.durationSeconds) (hbpm : a1.bpm = a2.bpm)
    (hbeats : a1.beats = a2.beats) (hsections : a1.sections = a2.sections)
    (hp : p1 = p2) :
    build_shots rng a1 p1 = build_shots rng a2 p2 := by
  subst hp
  unfold build_shots effDuration effBpm
  rw [hdur, hbpm, hbeats, hsections]

/-- Witness for claim C3: two analysis records differing only in backend
and warnings produce the same plan. -/
theorem c3_plan_witness :
    build_shots trivRng aW1 pDefault =
      build_shots trivRng { aW1 with backend := "other", warnings := ["w"] } pDefault :=
  c3_plan_deterministic trivRng aW1 _ pDefault pDefault rfl rfl rfl rfl rfl

/-!  Claim C8: mux loops the video and the audio governs the duration  -/

theorem mux_command_loops (ffmpegBin loopVideo audioFile outputFile : String) (crf : ℤ) :
    has_stream_loop_forever (mux_audio_command ffmpegBin loopVideo audioFile outputFile crf) = true := by
  simp [has_stream_loop_forever, mux_audio_command]

theorem mux_command_shortest (ffmpegBin loopVideo audioFile outputFile : String) (crf : ℤ) :
    has_shortest (mux_audio_command ffmpegBin loopVideo audioFile outputFile crf) = true := by
  simp [has_shortest, mux_audio_command]

theorem looped_source_time_bounds (v t : ℚ) (hv : 0 < v) :
    0 ≤ looped_source_time v t ∧ looped_source_time v t < v := by
  unfold looped_source_time
  have hne : v ≠ 0 := ne_of_gt hv
  have h1 : (⌊t / v⌋ : ℚ) ≤ t / v := Int.floor_le _
  have h2 : t / v < ⌊t / v⌋ + 1 := Int.lt_floor_add_one _
  have he : v * (t / v) = t := by field_simp
  constructor
  · nlinarith [mul_le_mul_of_nonneg_left h1 hv.le]
  · nlinarith [mul_lt_mul_of_pos_left h2 hv]

theorem looped_source_time_period (v t : ℚ) (hv : 0 < v) :
    looped_source_time v (t + v) = looped_source_time v t := by
  unfold looped_source_time
  have hne : v ≠ 0 := ne_of_gt hv
  have hdiv : (t + v) / v = t / v + 1 := by field_simp
  rw [hdiv, Int.floor_add_one]
  push_cast
  ring

/-- Claim C8 (confirmed, against the spec model of the external mux tool):
the command _mux_audio builds loops the video input indefinitely and
passes -shortest, so under the modelled tool semantics the output duration
equals the audio duration for every video duration (in particular when the
concatenated video is shorter than the audio, and the audio is never
trimmed to the video length); the shown source-clip time stays inside the
clip and repeats with period equal to the clip length, so the content
loops from the start. -/
theorem c8_mux_duration (ffmpegBin loopVideo audioFile outputFile : String) (crf : ℤ)
    (videoDur audioDur t : ℚ) (hv : 0 < videoDur) :
    muxed_duration (mux_audio_command ffmpegBin loopVideo audioFile outputFile crf)
        videoDur audioDur = some audioDur ∧
    0 ≤ looped_source_time videoDur t ∧ looped_source_time videoDur t < videoDur ∧
    looped_source_time videoDur (t + videoDur) = looped_source_time videoDur t := by
  refine ⟨?_, (looped_source_time_bounds videoDur t hv).1,
    (looped_source_time_bounds videoDur t hv).2,
    looped_source_time_period videoDur t hv⟩
  simp [muxed_duration, mux_command_loops, mux_command_shortest]

/-- Witness for claim C8: audio 200s, concatenated video 40s, output 200s. -/
theorem c8_mux_witness :
    muxed_duration (mux_audio_command "ffmpeg" "concat_video.mp4" "song.mp3" "out.mp4" 18)
        40 200 = some 200 ∧
    0 ≤ looped_source_time 40 55 ∧ looped_source_time 40 55 < 40 ∧
    looped_source_time 40 (55 + 40) = looped_source_time 40 55 :=
  c8_mux_duration "ffmpeg" "concat_video.mp4" "song.mp3" "out.mp4" 18 40 200 55 (by norm_num)

/-!  Lemmas about best-take selection (claims C6, C7, C10)  -/

theorem insertDesc_ne_nil (c : ℚ × Take) (l : List (ℚ × Take)) : insertDesc c l ≠ [] := by
  cases l with
  | nil => simp [insertDesc]
  | cons d ds =>
    unfold insertDesc
    split_ifs <;> simp

theorem sortDesc_nil_iff (l : List (ℚ × Take)) : sortDesc l = [] ↔ l = [] := by
  cases l with
  | nil => simp [sortDesc]
  | cons x xs =>
    constructor
    · intro h
      exact absurd h (insertDesc_ne_nil x (sortDesc xs))
    · intro h
      simp at h

theorem sortDesc_head_spec :
    ∀ (l : List (ℚ × Take)) (c : ℚ × Take) (rest : List (ℚ × Take)),
      sortDesc l = c :: rest →
      ∃ pre post, l = pre ++ c :: post ∧ (∀ d ∈ pre, d.1 < c.1) ∧ ∀ d ∈ l, d.1 ≤ c.1
  | [], c, rest, h => by simp [sortDesc] at h
  | x :: xs, c, rest, h => by
    have hx : sortDesc (x :: xs) = insertDesc x (sortDesc xs) := rfl
    rw [hx] at h
    cases hsx : sortDesc xs with
    | nil =>
      have hxs : xs = [] := (sortDesc_nil_iff xs).mp hsx
      rw [hsx] at h
      simp only [insertDesc, List.cons.injEq] at h
      obtain ⟨rfl, -⟩ := h
      exact ⟨[], [], by simp [hxs], by simp, by simp [hxs]⟩
    | cons y ys =>
      obtain ⟨pre1, post1, hdec1, hpre1, hall1⟩ := sortDesc_head_spec xs y ys hsx
      rw [hsx] at h
      by_cases hcmp : x.1 < y.1
      · simp only [insertDesc, if_pos hcmp, List.cons.injEq] at h
        obtain ⟨rfl, -⟩ := h
        refine ⟨x :: pre1, post1, by simp [hdec1], ?_, ?_⟩
        · intro d hd
          rcases List.mem_cons.mp hd with rfl | hd
          · exact hcmp
          · exact hpre1 d hd
        · intro d hd
          rcases List.mem_cons.mp hd with rfl | hd
          · exact le_of_lt hcmp
          · exact hall1 d hd
      · simp only [insertDesc, if_neg hcmp, List.cons.injEq] at h
        obtain ⟨rfl, -⟩ := h
        refine ⟨[], xs, by simp, by simp, ?_⟩
        intro d hd
        rcases List.mem_cons.mp hd with rfl | hd
        · exact le_refl _
        · exact le_trans (hall1 d hd) (not_lt.mp hcmp)

theorem filterMap_cons_decomp {α β : Type} (f : α → Option β) :
    ∀ (l : List α) (pre : List β) (c : β) (post : List β),
      l.filterMap f = pre ++ c :: post →
      ∃ l1 x l2, l = l1 ++ x :: l2 ∧ f x = some c ∧ l1.filterMap f = pre
  | [], pre, c, post, h => by
    rw [List.filterMap_nil] at h
    exact absurd h.symm (by simp)
  | a :: as, pre, c, post, h => by
    cases hfa : f a with
    | none =>
      rw [List.filterMap_cons_none hfa] at h
      obtain ⟨l1, x, l2, hdec, hfx, hpre⟩ := filterMap_cons_decomp f as pre c post h
      exact ⟨a :: l1, x, l2, by simp [hdec], hfx,
        by rw [List.filterMap_cons_none hfa]; exact hpre⟩
    | some b =>
      rw [List.filterMap_cons_some hfa] at h
      cases pre with
      | nil =>
        simp only [List.nil_append, List.cons.injEq] at h
        obtain ⟨rfl, rfl⟩ := h
        exact ⟨[], a, as, rfl, hfa, rfl⟩
      | cons p ps =>
        simp only [List.cons_append, List.cons.injEq] at h
        obtain ⟨rfl, h2⟩ := h
        obtain ⟨l1, x, l2, hdec, hfx, hpre⟩ := filterMap_cons_decomp f as ps c post h2
        exact ⟨a :: l1, x, l2, by simp [hdec], hfx,
          by rw [List.filterMap_cons_some hfa, hpre]⟩

theorem take_candidate_some {fs : String → Bool} {t : Take} {s : ℚ} {u : Take}
    (h : take_candidate fs t = some (s, u)) : u = t ∧ s = take_score t := by
  unfold take_candidate at h
  split at h
  · exact absurd h (by simp)
  · split at h
    · exact absurd h (by simp)
    · split_ifs at h
      rw [Option.some.injEq, Prod.mk.injEq] at h
      obtain ⟨hs2, ht2⟩ := h
      subst ht2
      exact ⟨rfl, hs2.symm⟩

theorem take_candidate_of_usable {fs : String → Bool} {t : Take}
    (h : usable_take fs t = true) : take_candidate fs t = some (take_score t, t) := by
  unfold usable_take at h
  cases hc : take_candidate fs t with
  | none => rw [hc] at h; simp at h
  | some c =>
    obtain ⟨s, u⟩ := c
    obtain ⟨rfl, rfl⟩ := take_candidate_some hc
    rfl

theorem usable_of_take_candidate {fs : String → Bool} {t : Take} {c : ℚ × Take}
    (h : take_candidate fs t = some c) : usable_take fs t = true := by
  unfold usable_take
  rw [h]
  rfl

theorem best_take_none_iff (fs : String → Bool) (takes : List Take) :
    best_take fs takes = none ↔ ∀ t ∈ takes, usable_take fs t = false := by
  unfold best_take
  cases hs : sortDesc (takes.filterMap (take_candidate fs)) with
  | nil =>
    have hfm : takes.filterMap (take_candidate fs) = [] := (sortDesc_nil_iff _).mp hs
    constructor
    · intro _ t ht
      have hnone := List.filterMap_eq_nil.mp hfm t ht
      unfold usable_take
      rw [hnone]
      rfl
    · intro _
      rfl
  | cons c rest =>
    constructor
    · intro h
      exact absurd h (by simp)
    · intro hall
      exfalso
      have hne : takes.filterMap (take_candidate fs) ≠ [] := by
        intro hnil
        rw [hnil] at hs
        simp [sortDesc] at hs
      have hnil : takes.filterMap (take_candidate fs) = [] := by
        apply List.filterMap_eq_nil.mpr
        intro t ht
        have hu := hall t ht
        unfold usable_take at hu
        cases hc : take_candidate fs t with
        | none => rfl
        | some d => rw [hc] at hu; simp at hu
      exact hne hnil

theorem best_take_some_spec (fs : String → Bool) (takes : List Take) (t : Take)
    (h : best_take fs takes = some t) :
    usable_take fs t = true ∧
    (∀ u ∈ takes, usable_take fs u = true → take_score u ≤ take_score t) ∧
    ∃ pre post, takes = pre ++ t :: post ∧
      ∀ u ∈ pre, usable_take fs u = true → take_score u < take_score t := by
  unfold best_take at h
  cases hs : sortDesc (takes.filterMap (take_candidate fs)) with
  | nil =>
    rw [hs] at h
    exact absurd h (by simp)
  | cons c rest =>
    rw [hs] at h
    obtain ⟨cs, cu⟩ := c
    have hcu : cu = t := by simpa using h
    rw [← hcu]
    obtain ⟨preC, postC, hdecC, hpreC, hallC⟩ := sortDesc_head_spec _ _ rest hs
    obtain ⟨l1, x, l2, hdec, hfx, hpreEq⟩ :=
      filterMap_cons_decomp (take_candidate fs) takes preC (cs, cu) postC hdecC
    obtain ⟨hxu, hxs⟩ := take_candidate_some hfx
    subst hxu
    refine ⟨usable_of_take_candidate hfx, ?_, ?_⟩
    · intro u hu huse
      have hmem : (take_score u, u) ∈ takes.filterMap (take_candidate fs) :=
        List.mem_filterMap.mpr ⟨u, hu, take_candidate_of_usable huse⟩
      have := hallC _ hmem
      simpa [hxs] using this
    · refine ⟨l1, l2, hdec, ?_⟩
      intro u hu huse
      have hmem : (take_score u, u) ∈ l1.filterMap (take_candidate fs) :=
        List.mem_filterMap.mpr ⟨u, hu, take_candidate_of_usable huse⟩
      rw [hpreEq] at hmem
      have := hpreC _ hmem
      simpa [hxs] using this

/-!  Claim C6: best-take selection  -/

/-- Claim C6 (confirmed): best-take selection returns no clip exactly when
no take of the shot is usable (success status with an existing file), and
a selected take is usable, carries the maximum score among usable takes,
and is the first usable take in encounter order attaining that maximum
(every earlier usable take scores strictly less). -/
theorem c6_best_take_selection (fs : String → Bool) (takes : List Take) :
    (best_take fs takes = none ↔ ∀ t ∈ takes, usable_take fs t = false) ∧
    ∀ t, best_take fs takes = some t →
      usable_take fs t = true ∧
      (∀ u ∈ takes, usable_take fs u = true → take_score u ≤ take_score t) ∧
      ∃ pre post, takes = pre ++ t :: post ∧
        ∀ u ∈ pre, usable_take fs u = true → take_score u < take_score t :=
  ⟨best_take_none_iff fs takes, fun t h => best_take_some_spec fs takes t h⟩

/-- Witness for claim C6 at three takes scoring 0.35, 0.8, 0.6 (the 0.8
take is selected). -/
theorem c6_best_take_witness :
    usable_take fsAll takeW6b = true ∧
    (∀ u ∈ takesW6, usable_take fsAll u = true → take_score u ≤ take_score takeW6b) ∧
    ∃ pre post, takesW6 = pre ++ takeW6b :: post ∧
      ∀ u ∈ pre, usable_take fsAll u = true → take_score u < take_score takeW6b :=
  (c6_best_take_selection fsAll takesW6).2 takeW6b (by with_unfolding_all decide)

/-!  Claim C10: a missing or null quality score  -/

/-- Claim C10 (confirmed): a usable take whose quality_score is missing or
null is scored 0.0, stays eligible (it is selected when it is the only
usable take of the shot, even when duplicated), and is never selected over
a usable take with a positive score. -/
theorem c10_null_score (fs : String → Bool) (takes : List Take) (t0 : Take)
    (hmem : t0 ∈ takes) (husable : usable_take fs t0 = true)
    (hnull : t0.qualityScore = none) :
    take_score t0 = 0 ∧
    ((∀ u ∈ takes, usable_take fs u = true → u = t0) → best_take fs takes = some t0) ∧
    ∀ t1 ∈ takes, usable_take fs t1 = true → 0 < take_score t1 →
      best_take fs takes ≠ some t0 := by
  have hscore : take_score t0 = 0 := by simp [take_score, hnull]
  refine ⟨hscore, ?_, ?_⟩
  · intro honly
    cases hb : best_take fs takes with
    | none =>
      have := (best_take_none_iff fs takes).mp hb t0 hmem
      rw [husable] at this
      exact absurd this (by simp)
    | some t =>
      obtain ⟨htu, -, pre, post, hdec, -⟩ := best_take_some_spec fs takes t hb
      have ht : t ∈ takes := by
        rw [hdec]
        exact List.mem_append_right pre (List.mem_cons_self t post)
      rw [honly t ht htu]
  · intro t1 h1 hu1 hp1 hb
    obtain ⟨-, hmax, -⟩ := best_take_some_spec fs takes t0 hb
    have := hmax t1 h1 hu1
    rw [hscore] at this
    exact absurd (lt_of_lt_of_le hp1 this) (lt_irrefl 0)

/-- Witness for claim C10: a single usable take with a null score is
selected; with a positive-score competitor present it is not. -/
theorem c10_null_score_witness :
    take_score takeNull = 0 ∧
    ((∀ u ∈ [takeNull], usable_take fsAll u = true → u = takeNull) →
      best_take fsAll [takeNull] = some takeNull) ∧
    ∀ t1 ∈ [takeNull], usable_take fsAll t1 = true → 0 < take_score t1 →
      best_take fsAll [takeNull] ≠ some takeNull :=
  c10_null_score fsAll [takeNull] takeNull (by simp)
    (by with_unfolding_all decide) (by with_unfolding_all decide)

/-!  Claim C7: when assembly reports no usable clips  -/

theorem take_pos_ne_nil {α : Type} {l : List α} {k : Nat} (hk : 1 ≤ k) :
    l.take k = [] ↔ l = [] := by
  cases l with
  | nil => simp
  | cons a as =>
    cases k with
    | zero => omega
    | succ n => simp

theorem shot_clips_eq_nil_iff (fs : String → Bool) (m : Manifest) :
    shot_clips fs m = [] ↔ ∀ s ∈ m.shots, ∀ t ∈ s.takes, usable_take fs t = false := by
  unfold shot_clips
  rw [List.filterMap_eq_nil]
  constructor
  · intro h s hs t ht
    have hmap := h s hs
    rw [Option.map_eq_none'] at hmap
    exact (best_take_none_iff fs s.takes).mp hmap t ht
  · intro h s hs
    rw [Option.map_eq_none']
    exact (best_take_none_iff fs s.takes).mpr (h s hs)

theorem select_clip_paths_eq_nil_iff (fs : String → Bool) (m : Manifest)
    (maxClips : Option ℤ) :
    select_clip_paths fs m maxClips = [] ↔
      ((∀ s ∈ m.shots, ∀ t ∈ s.takes, usable_take fs t = false) ∧
        ∀ p ∈ m.clips, fs p = false) := by
  have hsel : selected_clips fs m = [] ↔
      ((∀ s ∈ m.shots, ∀ t ∈ s.takes, usable_take fs t = false) ∧
        ∀ p ∈ m.clips, fs p = false) := by
    unfold selected_clips
    by_cases hA : shot_clips fs m = []
    · rw [if_pos hA]
      rw [List.filter_eq_nil]
      constructor
      · intro h
        exact ⟨(shot_clips_eq_nil_iff fs m).mp hA, fun p hp => by
          have := h p hp
          simpa using this⟩
      · intro h p hp
        simp [h.2 p hp]
    · rw [if_neg hA]
      constructor
      · intro h
        exact absurd h hA
      · intro h
        exact absurd ((shot_clips_eq_nil_iff fs m).mpr h.1) hA
  unfold select_clip_paths
  match maxClips with
  | none => exact hsel
  | some mm =>
    have h1 : (1 : ℤ) ≤ max 1 mm := le_max_left 1 mm
    rw [take_pos_ne_nil (by omega)]
    exact hsel

/-- Claim C7 (corrected): the no-usable-clips error occurs exactly when no
shot has a usable take AND no entry of the top-level clips fallback list
exists on disk; in particular a manifest with zero usable takes but an
existing fallback clip proceeds (refuting the claimed equivalence with
just the absence of usable takes), while a manifest with at least one
usable take always proceeds with a non-empty clip list. -/
theorem c7_no_clips_amended (fs : String → Bool) (m : Manifest) (maxClips : Option ℤ) :
    ((∃ msg, assemble_clips fs m maxClips = .error msg) ↔
      ((∀ s ∈ m.shots, ∀ t ∈ s.takes, usable_take fs t = false) ∧
        ∀ p ∈ m.clips, fs p = false)) ∧
    ((∃ s ∈ m.shots, ∃ t ∈ s.takes, usable_take fs t = true) →
      ∃ clips, assemble_clips fs m maxClips = .ok clips ∧ clips ≠ []) := by
  have herr : (∃ msg, assemble_clips fs m maxClips = .error msg) ↔
      select_clip_paths fs m maxClips = [] := by
    unfold assemble_clips
    by_cases h : select_clip_paths fs m maxClips = []
    · rw [if_pos h]
      exact ⟨fun _ => h, fun _ => ⟨_, rfl⟩⟩
    · rw [if_neg h]
      constructor
      · intro hex
        obtain ⟨msg, hmsg⟩ := hex
        exact absurd hmsg (by simp)
      · intro hnil
        exact absurd hnil h
  constructor
  · rw [herr]
    exact select_clip_paths_eq_nil_iff fs m maxClips
  · intro hex
    have hne : ¬ select_clip_paths fs m maxClips = [] := by
      rw [select_clip_paths_eq_nil_iff]
      intro hcon
      obtain ⟨s, hs, t, ht, hu⟩ := hex
      have := hcon.1 s hs t ht
      rw [hu] at this
      exact absurd this (by simp)
    unfold assemble_clips
    rw [if_neg hne]
    exact ⟨_, rfl, hne⟩

/-- Claim C7 counterexample: a manifest with no usable take at all but a
top-level clips entry that exists on disk; assembly proceeds successfully
instead of raising the no-usable-clips error. -/
theorem c7_no_clips_cex :
    (∀ s ∈ mCex7.shots, ∀ t ∈ s.takes, usable_take fsCex7 t = false) ∧
    (assemble_clips fsCex7 mCex7 none).toOption = some ["a.mp4"] := by
  constructor <;> with_unfolding_all decide

/-- Witness for the amended claim C7: one usable take yields a successful,
non-empty clip selection. -/
theorem c7_no_clips_witness :
    ∃ clips, assemble_clips fsAll { shots := [{ takes := takesW6 }], clips := [] } none =
        .ok clips ∧ clips ≠ [] :=
  (c7_no_clips_amended fsAll { shots := [{ takes := takesW6 }], clips := [] } none).2
    ⟨{ takes := takesW6 }, by simp, takeW6b, by with_unfolding_all decide,
      by with_unfolding_all decide⟩

/-!  Lemmas about one iteration of the shot loop (claims C1, C4)  -/

theorem beat_interval_pos (beats : List ℚ) (bpm : ℚ) : 0 < beat_interval beats bpm := by
  have hclamp : 0 < max 40 (min 220 (pyOrQ (some bpm) 120)) :=
    lt_of_lt_of_le (by norm_num) (le_max_left _ _)
  have hdiv : (0 : ℚ) < 60 / max 40 (min 220 (pyOrQ (some bpm) 120)) :=
    div_pos (by norm_num) hclamp
  unfold beat_interval
  split_ifs with h1 h2
  · exact pyMedian_ibi_pos h2
  · exact hdiv
  · exact hdiv

theorem clamp1_le (minS D cursor snapped : ℚ) : clamp1 minS D cursor snapped ≤ D :=
  min_le_left _ _

theorem clamp2_le (minS maxS D cursor snapped : ℚ) : clamp2 minS maxS D cursor snapped ≤ D := by
  unfold clamp2
  split_ifs with h
  · exact min_le_left _ _
  · exact clamp1_le _ _ _ _

theorem shot_end_core_bounds (minS maxS beatSec D cursor snapped : ℚ)
    (hbs : 0 < beatSec) (hc : cursor < D) :
    cursor < shot_end_core minS maxS beatSec D cursor snapped ∧
      shot_end_core minS maxS beatSec D cursor snapped ≤ D := by
  unfold shot_end_core
  split_ifs with h
  · refine ⟨lt_min hc ?_, min_le_left _ _⟩
    have := le_max_left beatSec minS
    linarith
  · exact ⟨not_le.mp h, clamp2_le _ _ _ _ _⟩

theorem shot_end_core_advance (minS maxS beatSec D cursor snapped dlt : ℚ)
    (hbs : 0 < beatSec) (hc : cursor < D)
    (hdb : dlt ≤ beatSec) (hdm : dlt ≤ minS) (hdx : 0 < maxS → dlt ≤ maxS) :
    shot_end_core minS maxS beatSec D cursor snapped = D ∨
      cursor + dlt ≤ shot_end_core minS maxS beatSec D cursor snapped := by
  unfold shot_end_core
  split_ifs with h
  · rcases min_cases D (cursor + max beatSec minS) with ⟨he, -⟩ | ⟨he, -⟩
    · exact Or.inl he
    · right
      rw [he]
      have hmx := le_max_left beatSec minS
      linarith
  · unfold clamp2 at h ⊢
    split_ifs at h ⊢ with h2
    · have hcur : cursor < min D (cursor + maxS) := not_le.mp h
      have hmaxpos : 0 < maxS := by
        have := lt_of_lt_of_le hcur (min_le_right D (cursor + maxS))
        linarith
      rcases min_cases D (cursor + maxS) with ⟨he, -⟩ | ⟨he, -⟩
      · exact Or.inl he
      · right
        rw [he]
        linarith [hdx hmaxpos]
    · unfold clamp1 at h ⊢
      rcases min_cases D (max (cursor + minS) snapped) with ⟨he, -⟩ | ⟨he, -⟩
      · exact Or.inl he
      · right
        rw [he]
        have hmx := le_max_left (cursor + minS) snapped
        linarith

theorem shot_end_core_duration (minS maxS beatSec D cursor snapped : ℚ)
    (hmin : 0 < minS) (hle : minS ≤ maxS) (hc : cursor < D) :
    min minS (D - cursor) ≤ shot_end_core minS maxS beatSec D cursor snapped - cursor ∧
      shot_end_core minS maxS beatSec D cursor snapped - cursor ≤ maxS := by
  have hlow : ∀ y, cursor + minS ≤ y → min minS (D - cursor) ≤ min D y - cursor := by
    intro y hy
    rcases min_cases D y with ⟨he, hle2⟩ | ⟨he, hle2⟩
    · rw [he]
      exact le_trans (min_le_right _ _) (le_refl _)
    · rw [he]
      exact le_trans (min_le_left _ _) (by linarith)
  have hc1pos : cursor < clamp1 minS D cursor snapped := by
    unfold clamp1
    refine lt_min hc ?_
    have := le_max_left (cursor + minS) snapped
    linarith
  have hc2pos : cursor < clamp2 minS maxS D cursor snapped := by
    unfold clamp2
    split_ifs with h2
    · refine lt_min hc ?_
      linarith
    · exact hc1pos
  unfold shot_end_core
  rw [if_neg (not_le.mpr hc2pos)]
  unfold clamp2
  split_ifs with h2
  · constructor
    · exact hlow _ (by linarith)
    · have := min_le_right D (cursor + maxS)
      linarith
  · unfold clamp1 at h2 ⊢
    constructor
    · refine hlow _ ?_
      have := le_max_left (cursor + minS) snapped
      linarith
    · linarith [not_lt.mp h2]

theorem step_end_bounds (p : PlanParams) (D : ℚ) (beats : List ℚ) (sections : List Section)
    (beatSec : ℚ) (cursor : ℚ) (shotIndex : Nat) (hbs : 0 < beatSec) (hc : cursor < D) :
    cursor < step_end p D beats sections beatSec cursor shotIndex ∧
      step_end p D beats sections beatSec cursor shotIndex ≤ D :=
  shot_end_core_bounds _ _ _ _ _ _ hbs hc

theorem step_end_advance (p : PlanParams) (D : ℚ) (beats : List ℚ) (sections : List Section)
    (beatSec : ℚ) (cursor : ℚ) (shotIndex : Nat)
    (hbs : 0 < beatSec) (hmin : 0 < p.minShotSeconds) (hc : cursor < D) :
    step_end p D beats sections beatSec cursor shotIndex = D ∨
      cursor + stepDelta p beatSec ≤ step_end p D beats sections beatSec cursor shotIndex := by
  apply shot_end_core_advance _ _ _ _ _ _ _ hbs hc
  · exact le_trans (min_le_left _ _) (min_le_left _ _)
  · exact le_trans (min_le_left _ _) (min_le_right _ _)
  · intro hmx
    unfold stepDelta
    rw [if_pos hmx]
    exact min_le_right _ _

theorem step_end_duration (p : PlanParams) (D : ℚ) (beats : List ℚ) (sections : List Section)
    (beatSec : ℚ) (cursor : ℚ) (shotIndex : Nat)
    (hmin : 0 < p.minShotSeconds) (hle : p.minShotSeconds ≤ p.maxShotSeconds) (hc : cursor < D) :
    min p.minShotSeconds (D - cursor) ≤
        step_end p D beats sections beatSec cursor shotIndex - cursor ∧
      step_end p D beats sections beatSec cursor shotIndex - cursor ≤ p.maxShotSeconds :=
  shot_end_core_duration _ _ _ _ _ _ hmin hle hc

theorem stepDelta_pos (p : PlanParams) (beatSec : ℚ)
    (hbs : 0 < beatSec) (hmin : 0 < p.minShotSeconds) : 0 < stepDelta p beatSec := by
  unfold stepDelta
  refine lt_min (lt_min hbs hmin) ?_
  split_ifs with h
  · exact h
  · exact hbs

/-!  Totality and shape of the shot loop  -/

theorem ceil_measure_decreases {D dlt c e : ℚ} (hdlt : 0 < dlt)
    (hc : c < D - 1/10) (hadv : c + dlt ≤ e) :
    (⌈(D - e) / dlt⌉).toNat < (⌈(D - c) / dlt⌉).toNat := by
  have h1 : (D - e) / dlt ≤ (D - c) / dlt - 1 := by
    have hsub : D - e ≤ D - c - dlt := by linarith
    have h2 : (D - c - dlt) / dlt = (D - c) / dlt - 1 := by
      field_simp
    calc (D - e) / dlt ≤ (D - c - dlt) / dlt := (div_le_div_right hdlt).mpr hsub
      _ = (D - c) / dlt - 1 := h2
  have h3 : ⌈(D - e) / dlt⌉ ≤ ⌈(D - c) / dlt⌉ - 1 := by
    calc ⌈(D - e) / dlt⌉ ≤ ⌈(D - c) / dlt - 1⌉ := Int.ceil_le_ceil h1
      _ = ⌈(D - c) / dlt⌉ - 1 := by
          have := Int.ceil_sub_int ((D - c) / dlt) 1
          simpa using this
  have h4 : 0 < ⌈(D - c) / dlt⌉ := by
    rw [Int.ceil_pos]
    have : (0 : ℚ) < D - c := by linarith
    exact div_pos this hdlt
  omega

theorem build_loop_ok {σ : Type} (rng : RngOps σ) (p : PlanParams) (D : ℚ)
    (beats : List ℚ) (sections : List Section) (beatSec : ℚ)
    (hbs : 0 < beatSec) (hmin : 0 < p.minShotSeconds) :
    ∀ (fuel : Nat) (c : ℚ) (idx : Nat) (st : σ),
      (⌈(D - c) / stepDelta p beatSec⌉).toNat < fuel →
      ∃ l, build_loop rng p D beats sections beatSec fuel c idx st = .ok l := by
  have hdlt : 0 < stepDelta p beatSec := stepDelta_pos p beatSec hbs hmin
  intro fuel
  induction fuel with
  | zero =>
    intro c idx st hm
    omega
  | succ f ih =>
    intro c idx st hm
    by_cases hc : c < D - 1/10
    · have hcD : c < D := by linarith
      have hmpos : 0 < (⌈(D - c) / stepDelta p beatSec⌉).toNat := by
        have : (0 : ℚ) < (D - c) / stepDelta p beatSec :=
          div_pos (by linarith) hdlt
        have := Int.ceil_pos.mpr this
        omega
      have hnext : (⌈(D - step_end p D beats sections beatSec c idx) /
          stepDelta p beatSec⌉).toNat < f := by
        rcases step_end_advance p D beats sections beatSec c idx hbs hmin hcD with hD | hadv
        · rw [hD]
          simp only [sub_self, zero_div, Int.ceil_zero]
          omega
        · have := ceil_measure_decreases hdlt hc hadv
          omega
      obtain ⟨l, hl⟩ := ih (step_end p D beats sections beatSec c idx) (idx + 1)
        (loop_state rng p sections c st) hnext
      refine ⟨loop_shot rng p D beats sections beatSec c idx st :: l, ?_⟩
      unfold build_loop
      rw [if_pos hc, hl]
    · refine ⟨[], ?_⟩
      unfold build_loop
      rw [if_neg hc]

theorem build_loop_sok {σ : Type} (rng : RngOps σ) (p : PlanParams) (D : ℚ)
    (beats : List ℚ) (sections : List Section) (beatSec : ℚ)
    (P : ℚ → ℚ → Prop)
    (hstep : ∀ c idx, c < D - 1/10 →
      c < step_end p D beats sections beatSec c idx ∧
      step_end p D beats sections beatSec c idx ≤ D ∧
      P c (step_end p D beats sections beatSec c idx)) :
    ∀ (fuel : Nat) (c : ℚ) (idx : Nat) (st : σ) (l : List Shot),
      build_loop rng p D beats sections beatSec fuel c idx st = .ok l →
      ShotsOK D P c l := by
  intro fuel
  induction fuel with
  | zero =>
    intro c idx st l h
    exact absurd h (by simp [build_loop])
  | succ f ih =>
    intro c idx st l h
    unfold build_loop at h
    by_cases hc : c < D - 1/10
    · rw [if_pos hc] at h
      cases hrec : build_loop rng p D beats sections beatSec f
          (step_end p D beats sections beatSec c idx) (idx + 1)
          (loop_state rng p sections c st) with
      | error msg =>
        rw [hrec] at h
        exact absurd h (by simp)
      | ok rest =>
        rw [hrec] at h
        have hl : l = loop_shot rng p D beats sections beatSec c idx st :: rest := by
          have := h
          simp only [Except.ok.injEq] at this
          exact this.symm
        subst hl
        obtain ⟨hlt, hle, hP⟩ := hstep c idx hc
        refine ⟨hc, step_end p D beats sections beatSec c idx, hlt, hle, hP,
          rfl, rfl, rfl, ?_⟩
        exact ih _ (idx + 1) (loop_state rng p sections c st) rest hrec
    · rw [if_neg hc] at h
      have hl : l = [] := by
        simp only [Except.ok.injEq] at h
        exact h.symm
      subst hl
      exact hc

theorem shotsOK_nil_iff (D : ℚ) (P : ℚ → ℚ → Prop) (c : ℚ) :
    ShotsOK D P c [] ↔ ¬ c < D - 1/10 := Iff.rfl

theorem shotsOK_cons_iff (D : ℚ) (P : ℚ → ℚ → Prop) (c : ℚ) (s : Shot) (rest : List Shot) :
    ShotsOK D P c (s :: rest) ↔
      c < D - 1/10 ∧ ∃ e, c < e ∧ e ≤ D ∧ P c e ∧
        s.startSec = round4 c ∧ s.endSec = round4 e ∧ s.durationSec = round4 (e - c) ∧
        ShotsOK D P e rest := Iff.rfl

theorem shots_ok_props (D : ℚ) (P : ℚ → ℚ → Prop) :
    ∀ (l : List Shot) (c : ℚ), ShotsOK D P c l →
      List.Chain' (fun a b => a.endSec = b.startSec) l ∧
      (∀ s, l.head? = some s → s.startSec = round4 c) ∧
      (l = [] → ¬ c < D - 1/10) ∧
      (∀ t, l.getLast? = some t → ∃ e, ¬ e < D - 1/10 ∧ e ≤ D ∧ t.endSec = round4 e)
  | [], c, h => by
    refine ⟨List.chain'_nil, ?_, fun _ => h, ?_⟩ <;> intro s hs <;> simp at hs
  | s :: rest, c, h => by
    obtain ⟨hc, e, hlt, hle, hP, hst, hen, hdur, hrest⟩ := (shotsOK_cons_iff _ _ _ _ _).mp h
    obtain ⟨ihchain, ihhead, ihnil, ihlast⟩ := shots_ok_props D P rest e hrest
    refine ⟨?_, ?_, ?_, ?_⟩
    · apply List.chain'_cons'.mpr
      refine ⟨?_, ihchain⟩
      intro b hb
      have := ihhead b hb
      rw [hen, this]
    · intro s2 hs2
      simp only [List.head?_cons, Option.some.injEq] at hs2
      rw [← hs2]
      exact hst
    · intro habs
      exact absurd habs (by simp)
    · intro t ht
      cases rest with
      | nil =>
        simp only [List.getLast?_singleton, Option.some.injEq] at ht
        refine ⟨e, ihnil rfl, hle, ?_⟩
        rw [← ht]
        exact hen
      | cons r rs =>
        rw [List.getLast?_cons_cons] at ht
        exact ihlast t ht

theorem shots_ok_mem_dur (D : ℚ) (P : ℚ → ℚ → Prop) :
    ∀ (l : List Shot) (c : ℚ), ShotsOK D P c l →
      (∀ s ∈ l, ∃ c2 e, P c2 e ∧ c2 < e ∧ e ≤ D ∧ c2 < D - 1/10 ∧
        s.durationSec = round4 (e - c2)) ∧
      (∀ s ∈ l.dropLast, ∃ c2 e, P c2 e ∧ c2 < e ∧ e < D - 1/10 ∧ c2 < D - 1/10 ∧
        s.durationSec = round4 (e - c2))
  | [], c, h => by simp
  | s :: rest, c, h => by
    obtain ⟨hc, e, hlt, hle, hP, hst, hen, hdur, hrest⟩ := (shotsOK_cons_iff _ _ _ _ _).mp h
    obtain ⟨ihmem, ihdrop⟩ := shots_ok_mem_dur D P rest e hrest
    constructor
    · intro s2 hs2
      rcases List.mem_cons.mp hs2 with rfl | hs2
      · exact ⟨c, e, hP, hlt, hle, hc, hdur⟩
      · exact ihmem s2 hs2
    · intro s2 hs2
      cases rest with
      | nil => simp at hs2
      | cons r rs =>
        rw [List.dropLast_cons_of_ne_nil (by simp)] at hs2
        rcases List.mem_cons.mp hs2 with rfl | hs2
        · have hguard := ((shotsOK_cons_iff _ _ _ _ _).mp hrest).1
          exact ⟨c, e, hP, hlt, hguard, hc, hdur⟩
        · exact ihdrop s2 hs2

/-!  Lemmas about the tail-merge post-pass  -/

theorem tail_merge_eq_nil_iff (minS : ℚ) :
    ∀ (l : List Shot), tail_merge minS l = [] ↔ l = []
  | [] => by simp [tail_merge]
  | [s] => by simp [tail_merge]
  | [p, t] => by
    unfold tail_merge
    split_ifs <;> simp
  | s :: t :: u :: rest => by
    unfold tail_merge
    simp

theorem tail_merge_head_start (minS : ℚ) :
    ∀ (l : List Shot),
      ((tail_merge minS l).head?).map Shot.startSec = (l.head?).map Shot.startSec
  | [] => rfl
  | [s] => rfl
  | [p, t] => by
    unfold tail_merge
    split_ifs <;> simp
  | s :: t :: u :: rest => by
    unfold tail_merge
    simp

theorem tail_merge_last_end (minS : ℚ) :
    ∀ (l : List Shot),
      ((tail_merge minS l).getLast?).map Shot.endSec = (l.getLast?).map Shot.endSec
  | [] => rfl
  | [s] => rfl
  | [p, t] => by
    unfold tail_merge
    split_ifs with h
    · simp
    · rfl
  | s :: t :: u :: rest => by
    show ((s :: tail_merge minS (t :: u :: rest)).getLast?).map Shot.endSec = _
    have ih := tail_merge_last_end minS (t :: u :: rest)
    have hne : tail_merge minS (t :: u :: rest) ≠ [] := by
      rw [Ne, tail_merge_eq_nil_iff]
      simp
    cases hM : tail_merge minS (t :: u :: rest) with
    | nil => exact absurd hM hne
    | cons m ms =>
      rw [List.getLast?_cons_cons, List.getLast?_cons_cons, ← hM, ih]

theorem tail_merge_chain (minS : ℚ) :
    ∀ (l : List Shot), List.Chain' (fun a b => a.endSec = b.startSec) l →
      List.Chain' (fun a b => a.endSec = b.startSec) (tail_merge minS l)
  | [], h => h
  | [s], h => h
  | [p, t], h => by
    unfold tail_merge
    split_ifs with hm
    · simp
    · exact h
  | s :: t :: u :: rest, h => by
    show List.Chain' _ (s :: tail_merge minS (t :: u :: rest))
    obtain ⟨hst, hrest⟩ := List.chain'_cons.mp h
    have ihc := tail_merge_chain minS (t :: u :: rest) hrest
    apply List.chain'_cons'.mpr
    refine ⟨?_, ihc⟩
    intro b hb
    have hhead := tail_merge_head_start minS (t :: u :: rest)
    cases hM : tail_merge minS (t :: u :: rest) with
    | nil =>
      rw [hM] at hb
      simp at hb
    | cons m ms =>
      rw [hM] at hb hhead
      simp only [List.head?_cons, Option.map_some'] at hhead
      have hbm : m = b := by simpa using hb
      have hmt : m.startSec = t.startSec := by simpa using hhead
      rw [← hbm, hmt]
      exact hst

/-!  Claim C1: contiguity of the planned shots  -/

theorem build_shots_ok_shape {σ : Type} (rng : RngOps σ) (a : AudioAnalysis) (p : PlanParams)
    (P : ℚ → ℚ → Prop)
    (hD : 0 < effDuration a) (hmin : 0 < p.minShotSeconds)
    (hstep : ∀ c idx, c < effDuration a - 1/10 →
      P c (step_end p (effDuration a) (a.beats.filter (fun v => decide (0 ≤ v)))
        a.sections (beat_interval (a.beats.filter (fun v => decide (0 ≤ v))) (effBpm a)) c idx)) :
    ∃ raw, build_shots rng a p = .ok (tail_merge p.minShotSeconds raw) ∧
      ShotsOK (effDuration a) P 0 raw := by
  have hbs : 0 < beat_interval (a.beats.filter (fun v => decide (0 ≤ v))) (effBpm a) :=
    beat_interval_pos _ _
  have hdlt : 0 < stepDelta p (beat_interval (a.beats.filter (fun v => decide (0 ≤ v))) (effBpm a)) :=
    stepDelta_pos _ _ hbs hmin
  have hfuel : (⌈(effDuration a - 0) / stepDelta p
      (beat_interval (a.beats.filter (fun v => decide (0 ≤ v))) (effBpm a))⌉).toNat <
      (max 1 (Int.ceil (effDuration a / stepDelta p
        (beat_interval (a.beats.filter (fun v => decide (0 ≤ v))) (effBpm a))))).toNat + 2 := by
    rw [sub_zero]
    have := le_max_right (1 : ℤ) (Int.ceil (effDuration a / stepDelta p
      (beat_interval (a.beats.filter (fun v => decide (0 ≤ v))) (effBpm a))))
    omega
  obtain ⟨raw, hraw⟩ := build_loop_ok rng p (effDuration a)
    (a.beats.filter (fun v => decide (0 ≤ v))) a.sections
    (beat_interval (a.beats.filter (fun v => decide (0 ≤ v))) (effBpm a)) hbs hmin
    _ 0 1 (rng.init p.seed) hfuel
  refine ⟨raw, ?_, ?_⟩
  · unfold build_shots
    dsimp only
    rw [if_neg (not_le.mpr hD), hraw]
  · refine build_loop_sok rng p (effDuration a) _ a.sections _ P ?_ _ 0 1 (rng.init p.seed) raw hraw
    intro c idx hc
    have hcD : c < effDuration a := by linarith
    obtain ⟨h1, h2⟩ := step_end_bounds p (effDuration a) _ a.sections _ c idx hbs hcD
    exact ⟨h1, h2, hstep c idx hc⟩

/-- Claim C1 (corrected): for positive duration and positive
min_shot_seconds the planner succeeds and its shot list satisfies exact
contiguity (adjacent end and start coincide) and starts at 0, but the
final end only reaches the duration up to the 0.1-second stopping margin
of the loop (plus the 4-decimal rounding), not the claimed 1e-3: the last
end lies in [duration - 0.1 - 1e-4, duration + 1e-4], and the list is
empty exactly when the duration is at most 0.1 seconds. -/
theorem c1_contiguity_amended {σ : Type} (rng : RngOps σ) (a : AudioAnalysis) (p : PlanParams)
    (hD : 0 < effDuration a) (hmin : 0 < p.minShotSeconds) :
    ∃ shots, build_shots rng a p = .ok shots ∧
      List.Chain' (fun s t => s.endSec = t.startSec) shots ∧
      (∀ s, shots.head? = some s → s.startSec = 0) ∧
      (∀ t, shots.getLast? = some t →
        effDuration a - 1/10 - 1/10000 ≤ t.endSec ∧ t.endSec ≤ effDuration a + 1/10000) ∧
      (shots = [] ↔ effDuration a ≤ 1/10) := by
  obtain ⟨raw, hok, hsok⟩ := build_shots_ok_shape rng a p (fun _ _ => True) hD hmin
    (fun _ _ _ => trivial)
  obtain ⟨hchain, hhead, hnil, hlast⟩ := shots_ok_props (effDuration a) _ raw 0 hsok
  refine ⟨tail_merge p.minShotSeconds raw, hok, ?_, ?_, ?_, ?_⟩
  · exact tail_merge_chain _ raw hchain
  · intro s hs
    have hmap := tail_merge_head_start p.minShotSeconds raw
    rw [hs] at hmap
    cases hr : raw.head? with
    | none =>
      rw [hr] at hmap
      simp at hmap
    | some s0 =>
      rw [hr] at hmap
      simp only [Option.map_some', Option.some.injEq] at hmap
      rw [hmap, hhead s0 hr, round4_zero]
  · intro t ht
    have hmap := tail_merge_last_end p.minShotSeconds raw
    rw [ht] at hmap
    cases hr : raw.getLast? with
    | none =>
      rw [hr] at hmap
      simp at hmap
    | some t0 =>
      rw [hr] at hmap
      simp only [Option.map_some', Option.some.injEq] at hmap
      obtain ⟨e, hge, hle, hend⟩ := hlast t0 hr
      have h1 := le_round4 e
      have h2 := round4_le e
      rw [hmap, hend]
      have hge2 := not_lt.mp hge
      constructor <;> linarith
  · rw [tail_merge_eq_nil_iff]
    constructor
    · intro hraw0
      have := hnil hraw0
      linarith [not_lt.mp this]
    · intro hsmall
      cases hr : raw with
      | nil => rfl
      | cons s rest =>
        rw [hr] at hsok
        have hguard := ((shotsOK_cons_iff _ _ _ _ _).mp hsok).1
        linarith

/-- Claim C1 counterexample: duration 10 with beats [0, 2, 4, 6, 9.91],
min shot 1 and max shot 4 produce shot ends [4, 8, 9.91]: the shots are
contiguous and start at 0, but the final end 9.91 misses the duration 10
by 0.09, far beyond the claimed 1e-3 tolerance (the loop stops once the
cursor is within 0.1 of the duration). -/
theorem c1_contiguity_cex :
    effDuration aCex1 = 10 ∧
    ((build_shots trivRng aCex1 pCex1).map (List.map Shot.endSec)).toOption =
      some [4, 8, 991/100] ∧
    (991/100 : ℚ) < 10 - 1/1000 := by
  refine ⟨?_, ?_, by norm_num⟩ <;> with_unfolding_all decide

/-- Witness for the amended claim C1 at duration 10 with no beats and the
default 2 to 4 second shot bounds. -/
theorem c1_contiguity_witness :
    ∃ shots, build_shots trivRng aW1 pDefault = .ok shots ∧
      List.Chain' (fun s t => s.endSec = t.startSec) shots ∧
      (∀ s, shots.head? = some s → s.startSec = 0) ∧
      (∀ t, shots.getLast? = some t →
        effDuration aW1 - 1/10 - 1/10000 ≤ t.endSec ∧ t.endSec ≤ effDuration aW1 + 1/10000) ∧
      (shots = [] ↔ effDuration aW1 ≤ 1/10) :=
  c1_contiguity_amended trivRng aW1 pDefault
    (by with_unfolding_all decide) (by norm_num [pDefault])

/-!  Claim C4: shot-duration bounds  -/

theorem span_ge_min {D minS c e : ℚ} (hP : min minS (D - c) ≤ e - c) (heD : e < D) :
    minS ≤ e - c := by
  rcases min_cases minS (D - c) with ⟨hm, -⟩ | ⟨hm, hlt⟩
  · rw [hm] at hP
    exact hP
  · rw [hm] at hP
    linarith

theorem tail_merge_mem_bounds (D minS maxS : ℚ) (hmin : 0 < minS) (hle : minS ≤ maxS) :
    ∀ (l : List Shot) (c : ℚ),
      ShotsOK D (fun c2 e => min minS (D - c2) ≤ e - c2 ∧ e - c2 ≤ maxS) c l →
      2 ≤ l.length →
      (∀ s ∈ tail_merge minS l, minS - 1/1000 ≤ s.durationSec ∧
        s.durationSec ≤ maxS + minS + 1/1000) ∧
      (∀ s ∈ (tail_merge minS l).dropLast, minS - 1/1000 ≤ s.durationSec ∧
        s.durationSec ≤ maxS + 1/1000)
  | [], c, _, hlen => by simp at hlen
  | [s], c, _, hlen => by simp at hlen
  | [p, t], c, hsok, _ => by
    obtain ⟨hc, ep, hcep, hepD, hPp, hpst, hpen, hpdur, hrest⟩ :=
      (shotsOK_cons_iff _ _ _ _ _).mp hsok
    obtain ⟨hguard, et, hepet, hetD, hPt, htst, hten, htdur, hlastOK⟩ :=
      (shotsOK_cons_iff _ _ _ _ _).mp hrest
    have hepD2 : ep < D := by linarith
    have hpspan : minS ≤ ep - c := span_ge_min hPp.1 hepD2
    have hpspan2 : ep - c ≤ maxS := hPp.2
    have htspan2 : et - ep ≤ maxS := hPt.2
    have hr1 := le_round4 (ep - c)
    have hr2 := round4_le (ep - c)
    have hr3 := le_round4 (et - ep)
    have hr4 := round4_le (et - ep)
    unfold tail_merge
    split_ifs with hm
    · -- merged: the final fragment was shorter than minS
      have htail : et - ep < minS + 1/10000 := by
        rw [htdur] at hm
        linarith
      have hre1 := le_round4 et
      have hre2 := round4_le et
      have hrc1 := le_round4 c
      have hrc2 := round4_le c
      have hmerged1 := le_round4 (round4 et - round4 c)
      have hmerged2 := round4_le (round4 et - round4 c)
      constructor
      · intro s2 hs2
        have hs2e : s2 = { p with endSec := t.endSec, durationSec := round4 (t.endSec - p.startSec) } := by
          simpa using hs2
        subst hs2e
        show minS - 1/1000 ≤ round4 (t.endSec - p.startSec) ∧
          round4 (t.endSec - p.startSec) ≤ maxS + minS + 1/1000
        rw [hten, hpst]
        constructor <;> linarith
      · intro s2 hs2
        simp at hs2
    · constructor
      · intro s2 hs2
        rcases List.mem_cons.mp hs2 with rfl | hs2
        · rw [hpdur]
          constructor <;> linarith
        · have hs2t : s2 = t := by simpa using hs2
          subst hs2t
          have hlow : minS ≤ s2.durationSec := not_lt.mp hm
          rw [htdur] at hlow ⊢
          constructor <;> linarith
      · intro s2 hs2
        have hs2p : s2 = p := by simpa using hs2
        subst hs2p
        rw [hpdur]
        constructor <;> linarith
  | s :: t :: u :: rest, c, hsok, _ => by
    obtain ⟨hc, es, hces, hesD, hPs, hsst, hsen, hsdur, hrest⟩ :=
      (shotsOK_cons_iff _ _ _ _ _).mp hsok
    have hguard2 := ((shotsOK_cons_iff _ _ _ _ _).mp hrest).1
    have hesD2 : es < D := by linarith
    have hsspan : minS ≤ es - c := span_ge_min hPs.1 hesD2
    have hsspan2 : es - c ≤ maxS := hPs.2
    have hr1 := le_round4 (es - c)
    have hr2 := round4_le (es - c)
    obtain ⟨ihmem, ihdrop⟩ :=
      tail_merge_mem_bounds D minS maxS hmin hle (t :: u :: rest) es hrest (by simp)
    have hsbounds : minS - 1/1000 ≤ s.durationSec ∧ s.durationSec ≤ maxS + 1/1000 := by
      rw [hsdur]
      constructor <;> linarith
    show _ ∧ _
    constructor
    · intro s2 hs2
      have : s2 = s ∨ s2 ∈ tail_merge minS (t :: u :: rest) := by
        simpa [tail_merge] using hs2
      rcases this with rfl | hs2m
      · exact ⟨hsbounds.1, by linarith [hsbounds.2]⟩
      · exact ihmem s2 hs2m
    · intro s2 hs2
      have hMne : tail_merge minS (t :: u :: rest) ≠ [] := by
        rw [Ne, tail_merge_eq_nil_iff]
        simp
      have hshape : tail_merge minS (s :: t :: u :: rest) =
          s :: tail_merge minS (t :: u :: rest) := rfl
      rw [hshape, List.dropLast_cons_of_ne_nil hMne] at hs2
      rcases List.mem_cons.mp hs2 with rfl | hs2m
      · exact hsbounds
      · exact ihdrop s2 hs2m

/-- Claim C4 (corrected): for positive duration and 0 < min_shot_seconds ≤
max_shot_seconds, every shot of the final list has duration at least
min(min_shot_seconds, duration) up to rounding, every shot except the last
stays within [min_shot_seconds, max_shot_seconds] up to rounding, and the
last shot is bounded by max_shot_seconds + min_shot_seconds (up to
rounding) rather than by max_shot_seconds plus one beat interval: the
tail-merge can extend the previous shot by a fragment of up to
min_shot_seconds, which may exceed a beat interval. -/
theorem c4_duration_amended {σ : Type} (rng : RngOps σ) (a : AudioAnalysis) (p : PlanParams)
    (hD : 0 < effDuration a) (hmin : 0 < p.minShotSeconds)
    (hle : p.minShotSeconds ≤ p.maxShotSeconds) :
    ∃ shots, build_shots rng a p = .ok shots ∧
      (∀ s ∈ shots, min p.minShotSeconds (effDuration a) - 1/1000 ≤ s.durationSec ∧
        s.durationSec ≤ p.maxShotSeconds + p.minShotSeconds + 1/1000) ∧
      (∀ s ∈ shots.dropLast, p.minShotSeconds - 1/1000 ≤ s.durationSec ∧
        s.durationSec ≤ p.maxShotSeconds + 1/1000) := by
  obtain ⟨raw, hok, hsok⟩ := build_shots_ok_shape rng a p
    (fun c2 e => min p.minShotSeconds (effDuration a - c2) ≤ e - c2 ∧
      e - c2 ≤ p.maxShotSeconds) hD hmin
    (fun c idx hc =>
      step_end_duration p (effDuration a) _ a.sections _ c idx hmin hle (by linarith))
  refine ⟨tail_merge p.minShotSeconds raw, hok, ?_⟩
  cases raw with
  | nil =>
    constructor <;> intro s2 hs2 <;> simp [tail_merge] at hs2
  | cons s rest =>
    cases rest with
    | nil =>
      obtain ⟨hc, e, hlt, hleD, hP, hst, hen, hdur, -⟩ :=
        (shotsOK_cons_iff _ _ _ _ _).mp hsok
      have hr1 := le_round4 (e - 0)
      have hr2 := round4_le (e - 0)
      have hlow : min p.minShotSeconds (effDuration a) ≤ e := by
        simpa using hP.1
      have hup : e ≤ p.maxShotSeconds := by
        simpa using hP.2
      constructor
      · intro s2 hs2
        have hs2s : s2 = s := by simpa [tail_merge] using hs2
        subst hs2s
        rw [hdur]
        constructor <;> linarith
      · intro s2 hs2
        simp [tail_merge] at hs2
    | cons t rest2 =>
      obtain ⟨hmem, hdrop⟩ := tail_merge_mem_bounds (effDuration a)
        p.minShotSeconds p.maxShotSeconds hmin hle (s :: t :: rest2) 0 hsok (by simp)
      refine ⟨?_, hdrop⟩
      intro s2 hs2
      obtain ⟨h1, h2⟩ := hmem s2 hs2
      have hminle := min_le_left p.minShotSeconds (effDuration a)
      exact ⟨by linarith, h2⟩

/-- Claim C4 counterexample: duration 9.9 with an integer beat grid and
shot bounds [2, 4] yields final durations [4, 5.9]: the merged last shot
lasts 5.9 seconds, exceeding max_shot_seconds 4 by 1.9 seconds, more than
the one-beat interval (1 second) the claim allows. -/
theorem c4_duration_cex :
    ((build_shots trivRng aCex4 pDefault).map (List.map Shot.durationSec)).toOption =
      some [4, 59/10] ∧
    beat_interval (aCex4.beats.filter (fun v => decide (0 ≤ v))) (effBpm aCex4) = 1 ∧
    pDefault.maxShotSeconds = 4 ∧ pDefault.minShotSeconds = 2 ∧
    (4 : ℚ) + 1 < 59/10 := by
  refine ⟨?_, ?_, rfl, rfl, by norm_num⟩ <;> with_unfolding_all decide

/-- Witness for the amended claim C4 at duration 10 with no beats and the
default 2 to 4 second shot bounds. -/
theorem c4_duration_witness :
    ∃ shots, build_shots trivRng aW1 pDefault = .ok shots ∧
      (∀ s ∈ shots, min pDefault.minShotSeconds (effDuration aW1) - 1/1000 ≤ s.durationSec ∧
        s.durationSec ≤ pDefault.maxShotSeconds + pDefault.minShotSeconds + 1/1000) ∧
      (∀ s ∈ shots.dropLast, pDefault.minShotSeconds - 1/1000 ≤ s.durationSec ∧
        s.durationSec ≤ pDefault.maxShotSeconds + 1/1000) :=
  c4_duration_amended trivRng aW1 pDefault (by with_unfolding_all decide)
    (by norm_num [pDefault]) (by norm_num [pDefault])
